import Mathlib

/-!
Shallow embedding of the recurrent-neural-network core in
`src/engine/libnn/src/rnn/mod.rs` (`RecurrentLayer`, `RecurrentNetwork`).

Weights are modelled as rationals.  The dense sublayer and the terminal
output layer are external collaborators of this module (their Rust sources
are not part of this snapshot); they are modelled from the spec, and each
such definition is marked `Modelled from the spec:`.

Rust panics (`assert_eq!`, `unwrap`, out-of-bounds indexing, and
`copy_from_slice` length mismatches) are modelled as `none`.
-/

/-- `Weight` from the source (`type Weight = f32`): a real-valued scalar,
modelled as a rational number. -/
abbrev Weight := Rat

/-- Modelled from the spec: the dense ("fully-connected") sublayer, whose
Rust source is outside this snapshot.  It owns a weight matrix (one row per
output neuron, row length = input dimension), a bias vector, a shared
activation function together with its derivative, and transient buffers:
the pre-activation sums and outputs of the most recent forward pass and the
per-neuron gradients of the most recent gradient computation. -/
structure DenseLayer where
  weights : List (List Weight)
  biases : List Weight
  activation : Weight → Weight
  activationDeriv : Weight → Weight
  sums : List Weight
  outputs : List Weight
  neuron_gradients : List Weight

/-- Dot product of a weight row with an input vector. -/
def dotInputs (row inputs : List Weight) : Weight :=
  (List.zipWith (fun w x => w * x) row inputs).sum

/-- Modelled from the spec: the dense forward transform — for each neuron,
the weighted sum of the inputs plus that neuron's bias, passed through the
activation function.  Records the pre-activation sums for later use by the
gradient computation. -/
def DenseLayer.forward_propagate (l : DenseLayer) (inputs : List Weight) : DenseLayer :=
  let sums := List.zipWith (fun row b => dotInputs row inputs + b) l.weights l.biases
  { l with sums := sums, outputs := sums.map l.activation }

/-- Modelled from the spec: the per-neuron gradient the dense sublayer
computes from downstream weights and downstream per-neuron gradients — for
its neuron `i`, the activation derivative at that neuron's recorded
pre-activation sum times the sum over downstream neurons `j` of
`downstream_weights[j][i] * downstream_gradients[j]`. -/
def denseGradOf (l : DenseLayer) (dsWeights : List (List Weight)) (dsGrads : List Weight) :
    List Weight :=
  (List.range l.weights.length).map fun i =>
    l.activationDeriv (l.sums.getD i 0) *
      (List.zipWith (fun row g => row.getD i 0 * g) dsWeights dsGrads).sum

/-- Modelled from the spec: the dense sublayer's gradient-computation
operation; stores the gradient in the transient per-neuron gradient buffer. -/
def DenseLayer.compute_gradients (l : DenseLayer) (dsWeights : List (List Weight))
    (dsGrads : List Weight) : DenseLayer :=
  { l with neuron_gradients := denseGradOf l dsWeights dsGrads }

/-- Modelled from the spec: dense sublayer construction with one initializer
call per weight and per bias; transient buffers start as zero vectors. -/
def DenseLayer.new (output_count input_count : Nat)
    (init_weights : Nat → Nat → Weight) (init_biases : Nat → Weight)
    (activation_fn activation_fn_deriv : Weight → Weight) : DenseLayer :=
  { weights := (List.range output_count).map fun o =>
      (List.range input_count).map fun i => init_weights o i
    biases := (List.range output_count).map fun o => init_biases o
    activation := activation_fn
    activationDeriv := activation_fn_deriv
    sums := List.replicate output_count 0
    outputs := List.replicate output_count 0
    neuron_gradients := List.replicate output_count 0 }

/-- `struct RecurrentLayer` from `rnn/mod.rs`. -/
structure RecurrentLayer where
  state : List Weight
  recurrent_tree : DenseLayer
  output_tree : DenseLayer
  combined_inputs_scratch : List Weight
  sequence_inputs : List (List Weight)
  prev_states : List (List Weight)
  computed_recurrent_gradients : List (List Weight)
  computed_output_gradients : List (List Weight)

/-- `RecurrentLayer::new` from `rnn/mod.rs`: the state starts as all zeros
of length `state_size`; recurrent_tree has `state_size` outputs and
`input_count + state_size` inputs; output_tree has `output_count` outputs
and the same input dimension; the scratch buffer has length
`input_count + state_size`; all history buffers start empty. -/
def RecurrentLayer.new (output_count input_count : Nat)
    (init_recurrent_weights : Nat → Nat → Weight) (init_recurrent_biases : Nat → Weight)
    (recurrent_activation_fn recurrent_activation_fn_deriv : Weight → Weight)
    (init_output_weights : Nat → Nat → Weight) (init_output_biases : Nat → Weight)
    (output_activation_fn output_activation_fn_deriv : Weight → Weight)
    (state_size : Nat) : RecurrentLayer :=
  { state := List.replicate state_size 0
    recurrent_tree := DenseLayer.new state_size (input_count + state_size)
      init_recurrent_weights init_recurrent_biases
      recurrent_activation_fn recurrent_activation_fn_deriv
    output_tree := DenseLayer.new output_count (input_count + state_size)
      init_output_weights init_output_biases
      output_activation_fn output_activation_fn_deriv
    combined_inputs_scratch := List.replicate (input_count + state_size) 0
    sequence_inputs := []
    prev_states := []
    computed_recurrent_gradients := []
    computed_output_gradients := [] }

/-- `RecurrentLayer::reset`: `self.state.fill(0.)`. -/
def RecurrentLayer.reset (l : RecurrentLayer) : RecurrentLayer :=
  { l with state := l.state.map fun _ => (0 : Weight) }

/-- The overwrite-or-append history write from `forward_propagate`:
`if let Some(slot) = buf.get_mut(idx) { slot.copy_from_slice(&src) } else { buf.push(src) }`.
Overwriting requires the existing slot to have the source's length
(`copy_from_slice` panics otherwise); a missing index appends at the end
(not at `idx`). -/
def setOrPush (buf : List (List Weight)) (idx : Nat) (src : List Weight) :
    Option (List (List Weight)) :=
  match buf.get? idx with
  | some slot => if slot.length = src.length then some (buf.set idx src) else none
  | none => some (buf ++ [src])

/-- `RecurrentLayer::forward_propagate` from `rnn/mod.rs`: builds the
combined (state, inputs) vector in the scratch buffer, runs both sublayers
forward on it, records the state-before-step and the inputs into the
history buffers at `index_in_sequence`, and overwrites the state with the
recurrent tree's output.  The two scratch `copy_from_slice` calls require
`state.len() + inputs.len() == combined_inputs_scratch.len()`, and the final
`state.copy_from_slice(&recurrent_tree.outputs)` requires the recurrent
tree's output length to equal the state length. -/
def RecurrentLayer.forward_propagate (l : RecurrentLayer) (inputs : List Weight)
    (index_in_sequence : Nat) : Option RecurrentLayer :=
  if l.state.length + inputs.length = l.combined_inputs_scratch.length then
    let combined := l.state ++ inputs
    let ot := l.output_tree.forward_propagate combined
    let rt := l.recurrent_tree.forward_propagate combined
    do
      let ps ← setOrPush l.prev_states index_in_sequence l.state
      let si ← setOrPush l.sequence_inputs index_in_sequence inputs
      if rt.outputs.length = l.state.length then
        some { l with
          combined_inputs_scratch := combined
          output_tree := ot
          recurrent_tree := rt
          prev_states := ps
          sequence_inputs := si
          state := rt.outputs }
      else none
  else none

/-- `RecurrentLayer::get_outputs`: the part of the output passed on to the
next layer. -/
def RecurrentLayer.get_outputs (l : RecurrentLayer) : List Weight :=
  l.output_tree.outputs

/-- Loop state of the backward pass in `RecurrentLayer::compute_gradients`:
the two evolving sublayers and the two gradient histories in push
(reverse-time) order. -/
structure CGState where
  output_tree : DenseLayer
  recurrent_tree : DenseLayer
  cog : List (List Weight)
  crg : List (List Weight)

/-- One iteration of the backward loop in `RecurrentLayer::compute_gradients`
(the body of `for i in (0..sequence_len).rev().skip(1)`), at step index `i`:
computes the output-path gradients of both trees from
`output_gradient_of_output_neurons[i]`, then projects the previously pushed
recurrent gradient back through `recurrent_recursvely_connected_weights`
and adds it elementwise into the recurrent output-path gradient.  Indexing
`output_gradient_of_output_neurons[i]`, the `last().unwrap()` on the
gradient history, and the elementwise `+=` loop's indexing are the panic
points. -/
def cgStep (outW outG recW : List (List Weight)) (i : Nat) (st : CGState) : Option CGState :=
  match outG.get? i with
  | none => none
  | some gi =>
    let ot := st.output_tree.compute_gradients outW gi
    let rtA := st.recurrent_tree.compute_gradients outW gi
    let recurrent_to_output_gradients := rtA.neuron_gradients
    match st.crg.getLast? with
    | none => none
    | some prevGrad =>
      let rtB := rtA.compute_gradients recW prevGrad
      if recurrent_to_output_gradients.length ≤ rtB.neuron_gradients.length then
        some { output_tree := ot
               recurrent_tree := rtB
               cog := st.cog ++ [ot.neuron_gradients]
               crg := st.crg ++ [List.zipWith (fun a b => a + b)
                 recurrent_to_output_gradients rtB.neuron_gradients] }
      else none

/-- The backward loop of `RecurrentLayer::compute_gradients`: `cgLoop m`
runs `cgStep` at indices `m-1, m-2, …, 0`, matching
`for i in (0..sequence_len).rev().skip(1)` when called with
`m = sequence_len - 1`. -/
def cgLoop (outW outG recW : List (List Weight)) : Nat → CGState → Option CGState
  | 0, st => some st
  | m + 1, st => do
    let st' ← cgStep outW outG recW m st
    cgLoop outW outG recW m st'

/-- `RecurrentLayer::compute_gradients` from `rnn/mod.rs`: seeds the
histories with the last step's gradients — computed from the *last* entry
of `output_gradient_of_output_neurons` (`.last().unwrap()`, a panic when
the list is empty), with no recurrent-to-recurrent term — then iterates
backwards over the earlier steps and finally reverses both histories into
chronological order. -/
def RecurrentLayer.compute_gradients (l : RecurrentLayer)
    (output_output_weights : List (List Weight))
    (output_gradient_of_output_neurons : List (List Weight))
    (sequence_len : Nat) : Option RecurrentLayer :=
  match output_gradient_of_output_neurons.getLast? with
  | none => none
  | some lastG =>
    let ot := l.output_tree.compute_gradients output_output_weights lastG
    let rt := l.recurrent_tree.compute_gradients output_output_weights lastG
    let recW := l.recurrent_tree.weights.map fun row => row.take l.state.length
    let st0 : CGState :=
      { output_tree := ot, recurrent_tree := rt
        cog := [ot.neuron_gradients], crg := [rt.neuron_gradients] }
    do
      let stF ← cgLoop output_output_weights output_gradient_of_output_neurons recW
        (sequence_len - 1) st0
      some { l with
        output_tree := stF.output_tree
        recurrent_tree := stF.recurrent_tree
        computed_output_gradients := stF.cog.reverse
        computed_recurrent_gradients := stF.crg.reverse }

/-- One weight row of `RecurrentLayer::update_weights`:
`*weight += learning_rate * neuron_gradient * combined_inputs_scratch[weight_ix]`;
indexing the scratch buffer panics when the row is longer than it. -/
def updateRow (lr g : Weight) (scratch row : List Weight) : Option (List Weight) :=
  if row.length ≤ scratch.length then
    some (List.zipWith (fun w x => w + lr * g * x) row scratch)
  else none

/-- The per-tree double loop of `RecurrentLayer::update_weights`: iterates
the step's neuron gradients, indexing the weight matrix row by row (a panic
when there are more gradients than rows); rows beyond the gradient list are
left untouched. -/
def updateTreeWeights (lr : Weight) (scratch : List Weight) :
    List Weight → List (List Weight) → Option (List (List Weight))
  | [], weights => some weights
  | _ :: _, [] => none
  | g :: gs, row :: rows => do
    let row' ← updateRow lr g scratch row
    let rows' ← updateTreeWeights lr scratch gs rows
    some (row' :: rows')

/-- Loop state of `RecurrentLayer::update_weights`: the scratch buffer and
the two evolving weight matrices. -/
structure UWState where
  scratch : List Weight
  output_weights : List (List Weight)
  recurrent_weights : List (List Weight)

/-- The state-part write of `update_weights`' scratch rebuild: for step 0
the scratch is left as is (its state part still holds the initial zero
fill); for a later step the first `stateLen` entries are overwritten with
`prev_states[step_ix]` (`copy_from_slice` panics unless that recorded state
has length `stateLen`, and indexing panics when the step is missing). -/
def uwScratch1 (stateLen : Nat) (prev_states : List (List Weight)) (step_ix : Nat)
    (scratch : List Weight) : Option (List Weight) :=
  if step_ix = 0 then
    some scratch
  else
    match prev_states.get? step_ix with
    | none => none
    | some ps =>
      if ps.length = stateLen ∧ stateLen ≤ scratch.length then
        some (ps ++ scratch.drop stateLen)
      else none

/-- The input-part write of `update_weights`' scratch rebuild: the entries
after the first `stateLen` are overwritten with `sequence_inputs[step_ix]`
(`copy_from_slice` panics on a length mismatch, indexing panics when the
step is missing). -/
def uwScratch2 (stateLen : Nat) (sequence_inputs : List (List Weight)) (step_ix : Nat)
    (scratch1 : List Weight) : Option (List Weight) :=
  match sequence_inputs.get? step_ix with
  | none => none
  | some inp =>
    if stateLen ≤ scratch1.length ∧ inp.length = scratch1.length - stateLen then
      some (scratch1.take stateLen ++ inp)
    else none

/-- One step of `RecurrentLayer::update_weights`: rebuilds the scratch
buffer for this step (state part untouched for step 0, `prev_states[step]`
otherwise, then `sequence_inputs[step]`), and applies the per-neuron weight
updates to both trees from that step's recorded gradients.  The
`copy_from_slice` calls and the history/gradient indexing are the panic
points. -/
def uwStep (stateLen : Nat) (prev_states sequence_inputs cog crg : List (List Weight))
    (lr : Weight) (step_ix : Nat) (st : UWState) : Option UWState := do
  let scratch1 ← uwScratch1 stateLen prev_states step_ix st.scratch
  let scratch2 ← uwScratch2 stateLen sequence_inputs step_ix scratch1
  let og ← cog.get? step_ix
  let ow ← updateTreeWeights lr scratch2 og st.output_weights
  let rg ← crg.get? step_ix
  let rw ← updateTreeWeights lr scratch2 rg st.recurrent_weights
  some { scratch := scratch2, output_weights := ow, recurrent_weights := rw }

/-- The step loop of `RecurrentLayer::update_weights`, over a list of step
indices (`0..sequence_len` in the actual call). -/
def uwLoop (stateLen : Nat) (prev_states sequence_inputs cog crg : List (List Weight))
    (lr : Weight) : List Nat → UWState → Option UWState
  | [], st => some st
  | s :: rest, st => do
    let st' ← uwStep stateLen prev_states sequence_inputs cog crg lr s st
    uwLoop stateLen prev_states sequence_inputs cog crg lr rest st'

/-- `RecurrentLayer::update_weights` from `rnn/mod.rs`: zero-fills the
scratch buffer, then for each step `0..sequence_len` rebuilds the step's
combined inputs and accumulates
`learning_rate * neuron_gradient * combined_input` into every weight of
both trees. -/
def RecurrentLayer.update_weights (l : RecurrentLayer) (learning_rate : Weight)
    (sequence_len : Nat) : Option RecurrentLayer := do
  let st0 : UWState :=
    { scratch := List.replicate l.combined_inputs_scratch.length 0
      output_weights := l.output_tree.weights
      recurrent_weights := l.recurrent_tree.weights }
  let stF ← uwLoop l.state.length l.prev_states l.sequence_inputs
    l.computed_output_gradients l.computed_recurrent_gradients learning_rate
    (List.range sequence_len) st0
  some { l with
    combined_inputs_scratch := stF.scratch
    output_tree := { l.output_tree with weights := stF.output_weights }
    recurrent_tree := { l.recurrent_tree with weights := stF.recurrent_weights } }

/-- One step of `RecurrentLayer::update_biases`:
`biases[neuron_ix] += computed_output_gradients[step_ix][neuron_ix] * learning_rate`
for every output_tree bias; indexing the gradient vector panics when it is
shorter than the bias vector. -/
def ubStep (lr : Weight) (grads biases : List Weight) : Option (List Weight) :=
  if biases.length ≤ grads.length then
    some (List.zipWith (fun b g => b + g * lr) biases grads)
  else none

/-- The step loop of `RecurrentLayer::update_biases`, over a list of step
indices; `computed_output_gradients[step_ix]` is the panic point. -/
def ubLoop (cog : List (List Weight)) (lr : Weight) :
    List Nat → List Weight → Option (List Weight)
  | [], biases => some biases
  | s :: rest, biases => do
    let g ← cog.get? s
    let biases' ← ubStep lr g biases
    ubLoop cog lr rest biases'

/-- `RecurrentLayer::update_biases` from `rnn/mod.rs`: for each step
`0..sequence_len`, increments each output_tree bias by that step's output
gradient times the learning rate.  The recurrent_tree is not touched. -/
def RecurrentLayer.update_biases (l : RecurrentLayer) (learning_rate : Weight)
    (sequence_len : Nat) : Option RecurrentLayer := do
  let b' ← ubLoop l.computed_output_gradients learning_rate
    (List.range sequence_len) l.output_tree.biases
  some { l with output_tree := { l.output_tree with biases := b' } }

/-- Modelled from the spec: the terminal output layer, whose Rust source is
outside this snapshot — a dense sublayer plus a per-neuron cost function
(with its derivative, used by its gradient computation) and transient cost,
gradient and cached-target buffers. -/
structure OutputLayer where
  weights : List (List Weight)
  biases : List Weight
  activation : Weight → Weight
  activationDeriv : Weight → Weight
  costFn : Weight → Weight → Weight
  costDeriv : Weight → Weight → Weight
  sums : List Weight
  outputs : List Weight
  costs : List Weight
  neuron_gradients : List Weight
  cached_expected : List Weight

/-- Modelled from the spec: the output layer's forward transform, identical
in shape to the dense sublayer's. -/
def OutputLayer.forward_propagate (l : OutputLayer) (inputs : List Weight) : OutputLayer :=
  let sums := List.zipWith (fun row b => dotInputs row inputs + b) l.weights l.biases
  { l with sums := sums, outputs := sums.map l.activation }

/-- Modelled from the spec: `compute_costs` — one cost entry per output
neuron, comparing the output to the target; the target is cached for the
following gradient computation. -/
def OutputLayer.compute_costs (l : OutputLayer) (expected : List Weight) : OutputLayer :=
  { l with costs := List.zipWith l.costFn l.outputs expected, cached_expected := expected }

/-- Modelled from the spec: `compute_gradients` — per-neuron gradient of
the cost with respect to the neuron, the cost derivative at (output,
cached target) times the activation derivative at the recorded
pre-activation sum. -/
def OutputLayer.compute_gradients (l : OutputLayer) : OutputLayer :=
  let grads := List.zipWith (fun p s => l.costDeriv p.1 p.2 * l.activationDeriv s)
    (l.outputs.zip l.cached_expected) l.sums
  { l with neuron_gradients := grads }

/-- Modelled from the spec: the output layer's update-weights operation,
taking an external input vector — each weight moves by
`learning_rate * neuron_gradient * input`. -/
def OutputLayer.update_weights (l : OutputLayer) (inputs : List Weight) (lr : Weight) :
    OutputLayer :=
  let ws := List.zipWith (fun row g => List.zipWith (fun w x => w + lr * g * x) row inputs)
    l.weights l.neuron_gradients
  { l with weights := ws }

/-- `struct RecurrentNetwork` from `rnn/mod.rs`. -/
structure RecurrentNetwork where
  recurrent_layer : RecurrentLayer
  output_layer : OutputLayer
  recurrent_layer_outputs : List (List Weight)
  outputs : List (List Weight)

/-- Loop state of `RecurrentNetwork::forward_propagate`: the evolving
network, the running total cost and the per-step output gradients. -/
structure FPState where
  net : RecurrentNetwork
  total_costs : Weight
  output_gradients : List (List Weight)

/-- One step of `RecurrentNetwork::forward_propagate` at index `step_ix`:
forwards through the recurrent layer and the output layer, records both
outputs into the per-step histories, and — when a target sequence was
supplied — indexes it (`expected_sequence[step_ix]`, a panic point) and
either computes the step's costs and gradients or uses an all-zero gradient
vector (sized from the output layer's current transient gradient buffer)
for an unsupervised step. -/
def fpStep (expected_sequence : Option (List (Option (List Weight))))
    (step_ix : Nat) (exampleInputs : List Weight) (st : FPState) : Option FPState := do
  let rl ← st.net.recurrent_layer.forward_propagate exampleInputs step_ix
  let ol := st.net.output_layer.forward_propagate rl.get_outputs
  let outs ← setOrPush st.net.outputs step_ix ol.outputs
  let rlOuts ← setOrPush st.net.recurrent_layer_outputs step_ix rl.get_outputs
  match expected_sequence with
  | none =>
    some { net := { recurrent_layer := rl, output_layer := ol
                    recurrent_layer_outputs := rlOuts, outputs := outs }
           total_costs := st.total_costs
           output_gradients := st.output_gradients }
  | some expected =>
    match expected.get? step_ix with
    | none => none
    | some none =>
      some { net := { recurrent_layer := rl, output_layer := ol
                      recurrent_layer_outputs := rlOuts, outputs := outs }
             total_costs := st.total_costs
             output_gradients :=
               st.output_gradients ++ [List.replicate ol.neuron_gradients.length 0] }
    | some (some expected_output) =>
      let ol2 := (ol.compute_costs expected_output).compute_gradients
      some { net := { recurrent_layer := rl, output_layer := ol2
                      recurrent_layer_outputs := rlOuts, outputs := outs }
             total_costs := st.total_costs + ol2.costs.sum
             output_gradients := st.output_gradients ++ [ol2.neuron_gradients] }

/-- The step loop of `RecurrentNetwork::forward_propagate`
(`for (step_ix, example) in sequence.iter().enumerate()`), carrying the
current step index. -/
def fpLoop (expected_sequence : Option (List (Option (List Weight)))) :
    Nat → List (List Weight) → FPState → Option FPState
  | _, [], st => some st
  | ix, ex :: rest, st => do
    let st' ← fpStep expected_sequence ix ex st
    fpLoop expected_sequence (ix + 1) rest st'

/-- `RecurrentNetwork::forward_propagate` from `rnn/mod.rs`: resets the
recurrent layer's state, runs every step in order, and returns the total
cost together with the per-step output gradients and the mutated network. -/
def RecurrentNetwork.forward_propagate (net : RecurrentNetwork)
    (sequence : List (List Weight))
    (expected_sequence : Option (List (Option (List Weight)))) :
    Option (Weight × List (List Weight) × RecurrentNetwork) := do
  let net0 : RecurrentNetwork := { net with recurrent_layer := net.recurrent_layer.reset }
  let stF ← fpLoop expected_sequence 0 sequence
    { net := net0, total_costs := 0, output_gradients := [] }
  some (stF.total_costs, stF.output_gradients, stF.net)

/-- The output-layer update loop of `RecurrentNetwork::train_one_sequence`:
one `update_weights` call per step, feeding that step's recorded
recurrent-layer output. -/
def olUpdateLoop (lr : Weight) : List (List Weight) → OutputLayer → OutputLayer
  | [], ol => ol
  | inp :: rest, ol => olUpdateLoop lr rest (ol.update_weights inp lr)

/-- `RecurrentNetwork::train_one_sequence` from `rnn/mod.rs`:
`assert_eq!(sequence.len(), expected_sequence.len())` (a panic on
mismatch), one forward pass with targets, the recurrent layer's BPTT, the
per-step output-layer weight updates (guarded by
`assert_eq!(outputs.len(), recurrent_layer_outputs.len())`), the recurrent
layer's weight and bias updates, and finally the pre-update total cost
divided by the output layer's cost-entry count and by the sequence
length. -/
def RecurrentNetwork.train_one_sequence (net : RecurrentNetwork)
    (sequence : List (List Weight)) (expected_sequence : List (Option (List Weight)))
    (learning_rate : Weight) : Option (Weight × RecurrentNetwork) :=
  if sequence.length = expected_sequence.length then do
    let r ← net.forward_propagate sequence (some expected_sequence)
    let net1 := r.2.2
    let rl2 ← net1.recurrent_layer.compute_gradients net1.output_layer.weights r.2.1
      sequence.length
    let net2 : RecurrentNetwork := { net1 with recurrent_layer := rl2 }
    if net2.outputs.length = net2.recurrent_layer_outputs.length then do
      let ol2 := olUpdateLoop learning_rate net2.recurrent_layer_outputs net2.output_layer
      let rl3 ← rl2.update_weights learning_rate sequence.length
      let rl4 ← rl3.update_biases learning_rate sequence.length
      some ((r.1 / (ol2.costs.length : Weight)) / (sequence.length : Weight),
        { recurrent_layer := rl4, output_layer := ol2
          recurrent_layer_outputs := net2.recurrent_layer_outputs
          outputs := net2.outputs })
    else none
  else none

/-- `RecurrentNetwork::predict` from `rnn/mod.rs`: a forward pass with no
targets, returning `&self.outputs[..sequence.len()]` (slicing panics when
the history is shorter than the sequence) together with the mutated
network. -/
def RecurrentNetwork.predict (net : RecurrentNetwork) (sequence : List (List Weight)) :
    Option (List (List Weight) × RecurrentNetwork) := do
  let r ← net.forward_propagate sequence none
  if sequence.length ≤ r.2.2.outputs.length then
    some (r.2.2.outputs.take sequence.length, r.2.2)
  else none

/-- The output-path gradients pushed by the backward loop of
`compute_gradients`, in push (reverse-time) order: for `pushC ot outW outG m`
the head is the gradient computed at step index `m - 1`. -/
def pushC (ot : DenseLayer) (outW outG : List (List Weight)) : Nat → List (List Weight)
  | 0 => []
  | m + 1 => denseGradOf ot outW (outG.getD m []) :: pushC ot outW outG m

/-- The recurrent-neuron gradients pushed by the backward loop of
`compute_gradients`, in push (reverse-time) order, given the gradient
`gnext` already stored for the step after the head's step: each pushed
gradient is the step's output-path gradient plus the next step's gradient
projected back through `recW`. -/
def pushR (rt : DenseLayer) (outW outG recW : List (List Weight)) :
    Nat → List Weight → List (List Weight)
  | 0, _ => []
  | m + 1, gnext =>
    List.zipWith (fun a b => a + b) (denseGradOf rt outW (outG.getD m []))
        (denseGradOf rt recW gnext) ::
      pushR rt outW outG recW m
        (List.zipWith (fun a b => a + b) (denseGradOf rt outW (outG.getD m []))
          (denseGradOf rt recW gnext))

/-- The combined-input vector in effect for step `s` of `update_weights`:
the recorded state-before-step (all-zero for step 0) followed by the
recorded input at that step. -/
def RecurrentLayer.combinedInputAt (l : RecurrentLayer) (s : Nat) : List Weight :=
  (if s = 0 then List.replicate l.state.length 0 else l.prev_states.getD s []) ++
    l.sequence_inputs.getD s []

/-- The behavior-determining fields of a dense sublayer: weight matrix,
bias vector and activation data — as opposed to the transient sum, output
and gradient buffers. -/
def denseSemEq (a b : DenseLayer) : Prop :=
  a.weights = b.weights ∧ a.biases = b.biases ∧
    a.activation = b.activation ∧ a.activationDeriv = b.activationDeriv

/-- The behavior-determining fields of a network: all weights, biases and
activation/cost functions, together with the state and scratch dimensions —
as opposed to the mutable state values, the history buffers and the
transient buffers. -/
def netSemEq (a b : RecurrentNetwork) : Prop :=
  a.recurrent_layer.state.length = b.recurrent_layer.state.length ∧
  a.recurrent_layer.combined_inputs_scratch.length =
    b.recurrent_layer.combined_inputs_scratch.length ∧
  denseSemEq a.recurrent_layer.recurrent_tree b.recurrent_layer.recurrent_tree ∧
  denseSemEq a.recurrent_layer.output_tree b.recurrent_layer.output_tree ∧
  a.output_layer.weights = b.output_layer.weights ∧
  a.output_layer.biases = b.output_layer.biases ∧
  a.output_layer.activation = b.output_layer.activation ∧
  a.output_layer.activationDeriv = b.output_layer.activationDeriv ∧
  a.output_layer.costFn = b.output_layer.costFn ∧
  a.output_layer.costDeriv = b.output_layer.costDeriv

/-- The identity activation (`IDENTITY` in the repository's tests). -/
def idFn : Weight → Weight := fun x => x

/-- The derivative of the identity activation. -/
def oneFn : Weight → Weight := fun _ => 1

/-- A squared-error per-neuron cost, as used by the repository's tests
(`MEAN_SQUARED_ERROR`). -/
def sqErr : Weight → Weight → Weight := fun o e => (o - e) * (o - e)

/-- Derivative of the squared-error cost with respect to the output
(up to the conventional constant factor). -/
def sqErrDeriv : Weight → Weight → Weight := fun o e => o - e

/-- A concrete dense sublayer with identity activation, used by witnesses. -/
def wDense (w : List (List Weight)) (b : List Weight) : DenseLayer :=
  { weights := w, biases := b, activation := idFn, activationDeriv := oneFn
    sums := List.replicate b.length 0, outputs := List.replicate b.length 0
    neuron_gradients := List.replicate b.length 0 }

/-- A concrete recurrent layer (`input_count = 1`, `output_count = 1`,
`state_size = 1`) with empty histories, used by witnesses. -/
def wLayer : RecurrentLayer :=
  { state := [0]
    recurrent_tree := wDense [[1/2, 1/3]] [0]
    output_tree := wDense [[1/4, 1/5]] [0]
    combined_inputs_scratch := [0, 0]
    sequence_inputs := [], prev_states := []
    computed_recurrent_gradients := [], computed_output_gradients := [] }

/-- A concrete output layer with one neuron and one input, used by
witnesses. -/
def wOutputLayer : OutputLayer :=
  { weights := [[1/7]], biases := [0], activation := idFn, activationDeriv := oneFn
    costFn := sqErr, costDeriv := sqErrDeriv
    sums := [0], outputs := [0], costs := [0], neuron_gradients := [0]
    cached_expected := [0] }

/-- A concrete network with empty histories, used by witnesses. -/
def wNet : RecurrentNetwork :=
  { recurrent_layer := wLayer, output_layer := wOutputLayer
    recurrent_layer_outputs := [], outputs := [] }

/-- A network with the same weights, biases and activation data as `wNet`
but different mutable state, stale history entries and stale transient
buffers, used by the determinism witness. -/
def wNetStale : RecurrentNetwork :=
  let rl : RecurrentLayer :=
    { state := [5]
      recurrent_tree := { wDense [[1/2, 1/3]] [0] with sums := [9], outputs := [9] }
      output_tree := { wDense [[1/4, 1/5]] [0] with sums := [8], outputs := [8] }
      combined_inputs_scratch := [7, 7]
      sequence_inputs := [[6]], prev_states := [[4]]
      computed_recurrent_gradients := [[3]], computed_output_gradients := [[2]] }
  let ol : OutputLayer :=
    { wOutputLayer with sums := [9], outputs := [9], costs := [5, 5]
                        neuron_gradients := [2], cached_expected := [1] }
  { recurrent_layer := rl, output_layer := ol
    recurrent_layer_outputs := [[8]], outputs := [[9]] }

/-! ## Basic lemmas about the dense sublayer model -/

theorem denseGradOf_compute (l : DenseLayer) (w w' : List (List Weight))
    (gg gg' : List Weight) :
    denseGradOf (l.compute_gradients w gg) w' gg' = denseGradOf l w' gg' := rfl

theorem compute_gradients_neuron_gradients (l : DenseLayer) (w : List (List Weight))
    (g : List Weight) :
    (l.compute_gradients w g).neuron_gradients = denseGradOf l w g := rfl

/-! ## C6: reset clears the state vector and nothing else -/

/-- C6: `RecurrentLayer.reset` sets every entry of the state vector to zero
(the state becomes an all-zero vector of the same length) and changes no
other field — the history buffers, computed gradients, weights and biases
are untouched — and calling `reset` twice equals calling it once. -/
theorem c6_reset_only_state (l : RecurrentLayer) :
    l.reset.state = List.replicate l.state.length 0 ∧
    l.reset.recurrent_tree = l.recurrent_tree ∧
    l.reset.output_tree = l.output_tree ∧
    l.reset.combined_inputs_scratch = l.combined_inputs_scratch ∧
    l.reset.sequence_inputs = l.sequence_inputs ∧
    l.reset.prev_states = l.prev_states ∧
    l.reset.computed_recurrent_gradients = l.computed_recurrent_gradients ∧
    l.reset.computed_output_gradients = l.computed_output_gradients ∧
    l.reset.reset = l.reset := by
  refine ⟨?_, rfl, rfl, rfl, rfl, rfl, rfl, rfl, ?_⟩
  · simp [RecurrentLayer.reset, List.map_const']
  · simp [RecurrentLayer.reset, List.map_map]

/-! ## C10: empty gradient list (empty sequence) aborts -/

/-- C10: `RecurrentLayer.compute_gradients` with an empty
`output_gradient_of_output_neurons` list panics unconditionally (the last
entry is unwrapped before the per-step loop), modelled as `none`; hence
`train_one_sequence` on an empty sequence (with the matching empty target
list, so both length-precondition sides are equal) aborts as well. -/
theorem c10_empty_sequence_aborts :
    (∀ (l : RecurrentLayer) (w : List (List Weight)) (n : Nat),
      l.compute_gradients w [] n = none) ∧
    (∀ (net : RecurrentNetwork) (lr : Weight),
      net.train_one_sequence [] [] lr = none) := by
  constructor
  · intro l w n
    rfl
  · intro net lr
    rfl

/-! ## C8: the state length is an invariant -/

/-- C8: `state.len() == state_size` for the lifetime of a `RecurrentLayer` —
the state has length `state_size` immediately after construction, and every
operation (`reset`, `forward_propagate`, `compute_gradients`,
`update_weights`, `update_biases`) preserves the state length. -/
theorem c8_state_length_invariant :
    (∀ (oc ic : Nat) (irw : Nat → Nat → Weight) (irb : Nat → Weight)
      (raf rad : Weight → Weight) (iow : Nat → Nat → Weight) (iob : Nat → Weight)
      (oaf oad : Weight → Weight) (ss : Nat),
      (RecurrentLayer.new oc ic irw irb raf rad iow iob oaf oad ss).state.length = ss) ∧
    (∀ l : RecurrentLayer, l.reset.state.length = l.state.length) ∧
    (∀ (l : RecurrentLayer) (inputs : List Weight) (idx : Nat) (l' : RecurrentLayer),
      l.forward_propagate inputs idx = some l' → l'.state.length = l.state.length) ∧
    (∀ (l : RecurrentLayer) (w g : List (List Weight)) (n : Nat) (l' : RecurrentLayer),
      l.compute_gradients w g n = some l' → l'.state.length = l.state.length) ∧
    (∀ (l : RecurrentLayer) (lr : Weight) (n : Nat) (l' : RecurrentLayer),
      l.update_weights lr n = some l' → l'.state.length = l.state.length) ∧
    (∀ (l : RecurrentLayer) (lr : Weight) (n : Nat) (l' : RecurrentLayer),
      l.update_biases lr n = some l' → l'.state.length = l.state.length) := by
  refine ⟨?_, ?_, ?_, ?_, ?_, ?_⟩
  · intro oc ic irw irb raf rad iow iob oaf oad ss
    simp [RecurrentLayer.new]
  · intro l
    simp [RecurrentLayer.reset]
  · intro l inputs idx l' h
    unfold RecurrentLayer.forward_propagate at h
    split at h
    · simp only [bind, Option.bind_eq_some] at h
      obtain ⟨ps, hps, si, hsi, h⟩ := h
      split at h
      · rename_i hr
        cases h
        simpa using hr
      · exact absurd h (by simp)
    · exact absurd h (by simp)
  · intro l w g n l' h
    unfold RecurrentLayer.compute_gradients at h
    rcases hg : g.getLast? with _ | gl
    · rw [hg] at h
      exact absurd h (by simp)
    · rw [hg] at h
      simp only [bind, Option.bind_eq_some] at h
      obtain ⟨stF, _, h⟩ := h
      cases h
      rfl
  · intro l lr n l' h
    unfold RecurrentLayer.update_weights at h
    simp only [bind, Option.bind_eq_some] at h
    obtain ⟨stF, _, h⟩ := h
    cases h
    rfl
  · intro l lr n l' h
    unfold RecurrentLayer.update_biases at h
    simp only [bind, Option.bind_eq_some] at h
    obtain ⟨b', _, h⟩ := h
    cases h
    rfl

/-- Witness for C8: on the concrete layer `wLayer` (state size 1), a
forward step succeeds and preserves the state length. -/
theorem c8_state_length_witness :
    ((wLayer.forward_propagate [1] 0).map fun x => x.state.length) = some 1 := by
  cases h : wLayer.forward_propagate [1] 0 with
  | none =>
    have hs : (wLayer.forward_propagate [1] 0).isSome = true := by decide
    rw [h] at hs
    cases hs
  | some l' =>
    have := c8_state_length_invariant.2.2.1 wLayer [1] 0 l' h
    simp [this]
    rfl

/-! ## C4: which contract violations actually fail fast -/

/-- Counterexample for C4 as stated: calling `forward_propagate` on a layer
with empty history buffers and the skipped (out-of-order) step index `5`
does not fail — it returns successfully, silently appending the recorded
state at position 0 rather than at index 5. -/
theorem c4_counterexample :
    (wLayer.forward_propagate [1] 5).isSome = true ∧
    ((wLayer.forward_propagate [1] 5).map fun l => l.prev_states) =
      some [[(0 : Weight)]] := by
  exact ⟨by decide, by decide⟩

/-- C4 (amended): a sequence/target length mismatch in `train_one_sequence`
is fatal and aborts the call immediately, but `forward_propagate` does not
detect out-of-order step indices: any index at or beyond the current
history length (in particular any skipped index) succeeds and silently
appends the step's records at the current end of the history buffers — not
at the requested index — and a repeated index silently overwrites. -/
theorem c4_length_mismatch_fatal_index_not_checked :
    (∀ (net : RecurrentNetwork) (seq : List (List Weight))
      (exp : List (Option (List Weight))) (lr : Weight),
      seq.length ≠ exp.length → net.train_one_sequence seq exp lr = none) ∧
    (∀ (l : RecurrentLayer) (inputs : List Weight) (idx : Nat),
      l.state.length + inputs.length = l.combined_inputs_scratch.length →
      (l.recurrent_tree.forward_propagate (l.state ++ inputs)).outputs.length =
        l.state.length →
      l.prev_states.length ≤ idx → l.sequence_inputs.length ≤ idx →
      l.forward_propagate inputs idx = some { l with
        combined_inputs_scratch := l.state ++ inputs
        output_tree := l.output_tree.forward_propagate (l.state ++ inputs)
        recurrent_tree := l.recurrent_tree.forward_propagate (l.state ++ inputs)
        prev_states := l.prev_states ++ [l.state]
        sequence_inputs := l.sequence_inputs ++ [inputs]
        state := (l.recurrent_tree.forward_propagate (l.state ++ inputs)).outputs }) := by
  constructor
  · intro net seq exp lr hne
    unfold RecurrentNetwork.train_one_sequence
    rw [if_neg hne]
  · intro l inputs idx hlen hrt hp hs
    have hp' : setOrPush l.prev_states idx l.state = some (l.prev_states ++ [l.state]) := by
      unfold setOrPush
      rw [List.get?_eq_none.2 hp]
    have hs' : setOrPush l.sequence_inputs idx inputs =
        some (l.sequence_inputs ++ [inputs]) := by
      unfold setOrPush
      rw [List.get?_eq_none.2 hs]
    unfold RecurrentLayer.forward_propagate
    rw [if_pos hlen]
    simp only [bind, hp', hs', Option.some_bind]
    rw [if_pos hrt]

/-- Witness for C4 (amended): on concrete inputs, a length mismatch aborts
`train_one_sequence`, and a skipped step index makes `forward_propagate`
append at the end of the (empty) histories. -/
theorem c4_amended_witness :
    wNet.train_one_sequence [[1]] [] (1/4) = none ∧
    wLayer.forward_propagate [1] 5 = some { wLayer with
      combined_inputs_scratch := wLayer.state ++ [1]
      output_tree := wLayer.output_tree.forward_propagate (wLayer.state ++ [1])
      recurrent_tree := wLayer.recurrent_tree.forward_propagate (wLayer.state ++ [1])
      prev_states := wLayer.prev_states ++ [wLayer.state]
      sequence_inputs := wLayer.sequence_inputs ++ [[1]]
      state := (wLayer.recurrent_tree.forward_propagate (wLayer.state ++ [1])).outputs } := by
  constructor
  · exact c4_length_mismatch_fatal_index_not_checked.1 wNet [[1]] [] (1/4) (by decide)
  · exact c4_length_mismatch_fatal_index_not_checked.2 wLayer [1] 5 (by decide) (by decide)
      (by decide) (by decide)

/-! ## BPTT loop characterization -/

theorem pushC_length (ot : DenseLayer) (outW outG : List (List Weight)) :
    ∀ m, (pushC ot outW outG m).length = m := by
  intro m
  induction m with
  | zero => rfl
  | succ m ih => simp [pushC, ih]

theorem pushR_length (rt : DenseLayer) (outW outG recW : List (List Weight)) :
    ∀ m g, (pushR rt outW outG recW m g).length = m := by
  intro m
  induction m with
  | zero => intro g; rfl
  | succ m ih => intro g; simp [pushR, ih]

theorem cgLoop_eq (outW outG recW : List (List Weight)) (ot0 rt0 : DenseLayer) :
    ∀ (m : Nat) (st st' : CGState),
      (∀ w g, denseGradOf st.output_tree w g = denseGradOf ot0 w g) →
      (∀ w g, denseGradOf st.recurrent_tree w g = denseGradOf rt0 w g) →
      ∀ gprev, st.crg.getLast? = some gprev →
      cgLoop outW outG recW m st = some st' →
      st'.cog = st.cog ++ pushC ot0 outW outG m ∧
      st'.crg = st.crg ++ pushR rt0 outW outG recW m gprev := by
  intro m
  induction m with
  | zero =>
    intro st st' _ _ gprev _ h
    cases h
    simp [pushC, pushR]
  | succ m ih =>
    intro st st' hot hrt gprev hlast h
    rw [cgLoop] at h
    simp only [bind, Option.bind_eq_some] at h
    obtain ⟨st1, hstep, hloop⟩ := h
    unfold cgStep at hstep
    rcases hg : outG.get? m with _ | gm
    · rw [hg] at hstep
      cases hstep
    · rw [hg] at hstep
      rw [hlast] at hstep
      simp only [Option.ite_none_right_eq_some, Option.some.injEq] at hstep
      obtain ⟨hcond, hstep⟩ := hstep
      subst hstep
      have hgm : outG.getD m [] = gm := by
        rw [List.getD_eq_getElem?_getD, ← List.get?_eq_getElem?, hg]
        rfl
      obtain ⟨hcog, hcrg⟩ := ih _ st'
        (by
          intro w g
          exact hot w g)
        (by
          intro w g
          exact hrt w g)
        _
        (List.getLast?_concat _)
        hloop
      constructor
      · rw [hcog]
        show st.cog ++ [(st.output_tree.compute_gradients outW gm).neuron_gradients] ++
            pushC ot0 outW outG m = st.cog ++ pushC ot0 outW outG (m + 1)
        rw [pushC, hgm, List.append_assoc, List.singleton_append,
          compute_gradients_neuron_gradients, hot]
      · rw [hcrg]
        show st.crg ++ [List.zipWith (fun a b => a + b)
            ((st.recurrent_tree.compute_gradients outW gm).neuron_gradients)
            (((st.recurrent_tree.compute_gradients outW gm).compute_gradients
              recW gprev).neuron_gradients)] ++
            pushR rt0 outW outG recW m (List.zipWith (fun a b => a + b)
              ((st.recurrent_tree.compute_gradients outW gm).neuron_gradients)
              (((st.recurrent_tree.compute_gradients outW gm).compute_gradients
                recW gprev).neuron_gradients)) =
          st.crg ++ pushR rt0 outW outG recW (m + 1) gprev
        rw [pushR, hgm, List.append_assoc, List.singleton_append]
        simp only [compute_gradients_neuron_gradients, denseGradOf_compute, hrt]

theorem pushC_reverse_getD (ot : DenseLayer) (outW outG : List (List Weight)) :
    ∀ m i, i < m → (pushC ot outW outG m).reverse.getD i [] =
      denseGradOf ot outW (outG.getD i []) := by
  intro m
  induction m with
  | zero =>
    intro i hi
    exact absurd hi (Nat.not_lt_zero i)
  | succ m ih =>
    intro i hi
    rw [pushC, List.reverse_cons]
    have hlen : (pushC ot outW outG m).reverse.length = m := by
      rw [List.length_reverse, pushC_length]
    rcases Nat.lt_or_ge i m with h | h
    · rw [List.getD_append _ _ _ _ (by omega)]
      exact ih i h
    · have him : i = m := by omega
      subst him
      rw [List.getD_append_right _ _ _ _ (by omega), hlen]
      simp

theorem pushR_chron_last (rt : DenseLayer) (outW outG recW : List (List Weight))
    (m : Nat) (g : List Weight) :
    ((pushR rt outW outG recW m g).reverse ++ [g]).getD m [] = g := by
  have hlen : (pushR rt outW outG recW m g).reverse.length = m := by
    rw [List.length_reverse, pushR_length]
  rw [List.getD_append_right _ _ _ _ (by omega), hlen]
  simp

theorem getD_append_pair (A : List (List Weight)) (E g : List Weight) (m j : Nat)
    (hA : A.length = m) (hj : j ≤ m) :
    (A ++ ([E] ++ [g])).getD j [] = (A ++ [E]).getD j [] := by
  rcases Nat.lt_or_ge j m with hlt | hge
  · rw [List.getD_append A ([E] ++ [g]) [] j (by omega),
      List.getD_append A [E] [] j (by omega)]
  · have hjm : j = m := by omega
    rw [hjm, List.getD_append_right A ([E] ++ [g]) [] m (by omega),
      List.getD_append_right A [E] [] m (by omega), hA]
    simp

theorem getD_append_pair_top (A : List (List Weight)) (E g : List Weight) (m : Nat)
    (hA : A.length = m) :
    (A ++ ([E] ++ [g])).getD (m + 1) [] = g := by
  rw [List.getD_append_right A ([E] ++ [g]) [] (m + 1) (by omega), hA]
  simp

theorem pushR_chron_rec (rt : DenseLayer) (outW outG recW : List (List Weight)) :
    ∀ m g i, i < m →
      ((pushR rt outW outG recW m g).reverse ++ [g]).getD i [] =
        List.zipWith (fun a b => a + b) (denseGradOf rt outW (outG.getD i []))
          (denseGradOf rt recW
            (((pushR rt outW outG recW m g).reverse ++ [g]).getD (i + 1) [])) := by
  intro m
  induction m with
  | zero =>
    intro g i hi
    exact absurd hi (Nat.not_lt_zero i)
  | succ m ih =>
    intro g i hi
    rw [pushR, List.reverse_cons, List.append_assoc]
    have hlen : (pushR rt outW outG recW m (List.zipWith (fun a b => a + b)
        (denseGradOf rt outW (outG.getD m []))
        (denseGradOf rt recW g))).reverse.length = m := by
      rw [List.length_reverse, pushR_length]
    rcases Nat.lt_or_ge i m with h | h
    · rw [getD_append_pair _ _ _ m i hlen (by omega),
        getD_append_pair _ _ _ m (i + 1) hlen (by omega)]
      exact ih _ i h
    · have him : i = m := by omega
      rw [him, getD_append_pair _ _ _ m m hlen le_rfl, pushR_chron_last,
        getD_append_pair_top _ _ _ m hlen]

theorem compute_gradients_eq (l : RecurrentLayer) (outW outG : List (List Weight))
    (n : Nat) (l' : RecurrentLayer) (gl : List Weight)
    (hgl : outG.getLast? = some gl)
    (h : l.compute_gradients outW outG n = some l') :
    l'.computed_output_gradients =
      (pushC l.output_tree outW outG (n - 1)).reverse ++
        [denseGradOf l.output_tree outW gl] ∧
    l'.computed_recurrent_gradients =
      (pushR l.recurrent_tree outW outG
          (l.recurrent_tree.weights.map fun row => row.take l.state.length) (n - 1)
          (denseGradOf l.recurrent_tree outW gl)).reverse ++
        [denseGradOf l.recurrent_tree outW gl] := by
  unfold RecurrentLayer.compute_gradients at h
  rw [hgl] at h
  simp only [bind, Option.bind_eq_some] at h
  obtain ⟨stF, hloop, h⟩ := h
  cases h
  obtain ⟨hcog, hcrg⟩ := cgLoop_eq outW outG
    (l.recurrent_tree.weights.map fun row => row.take l.state.length)
    l.output_tree l.recurrent_tree (n - 1)
    { output_tree := l.output_tree.compute_gradients outW gl
      recurrent_tree := l.recurrent_tree.compute_gradients outW gl
      cog := [(l.output_tree.compute_gradients outW gl).neuron_gradients]
      crg := [(l.recurrent_tree.compute_gradients outW gl).neuron_gradients] } stF
    (fun _ _ => rfl) (fun _ _ => rfl)
    (denseGradOf l.recurrent_tree outW gl) rfl hloop
  constructor
  · show stF.cog.reverse = _
    rw [hcog]
    show ([(l.output_tree.compute_gradients outW gl).neuron_gradients] ++
      pushC l.output_tree outW outG (n - 1)).reverse = _
    rw [List.reverse_append]
    rfl
  · show stF.crg.reverse = _
    rw [hcrg]
    show ([(l.recurrent_tree.compute_gradients outW gl).neuron_gradients] ++
      pushR l.recurrent_tree outW outG
        (l.recurrent_tree.weights.map fun row => row.take l.state.length) (n - 1)
        (denseGradOf l.recurrent_tree outW gl)).reverse = _
    rw [List.reverse_append]
    rfl

theorem compute_gradients_getLast (l : RecurrentLayer) (outW outG : List (List Weight))
    (n : Nat) (l' : RecurrentLayer) (h : l.compute_gradients outW outG n = some l') :
    ∃ gl, outG.getLast? = some gl := by
  unfold RecurrentLayer.compute_gradients at h
  rcases hg : outG.getLast? with _ | gl
  · rw [hg] at h
    cases h
  · exact ⟨gl, rfl⟩

theorem getLast?_getD (L : List (List Weight)) (gl : List Weight)
    (h : L.getLast? = some gl) : L.getD (L.length - 1) [] = gl := by
  rw [List.getD_eq_getElem?_getD, ← List.getLast?_eq_getElem?, h]
  rfl

/-! ## C1: the BPTT recurrence for the recurrent-neuron gradients -/

/-- C1: for `compute_gradients` with `sequence_len ≥ 1` (and a gradient list
of exactly that length), the recurrent-neuron gradient stored for the last
step equals exactly that step's output-path gradient (no recurrent
self-connection term), every earlier step's stored gradient is the
elementwise sum of that step's output-path gradient and the next step's
recurrent gradient projected back through the first `state_size` columns of
each row of recurrent_tree's weight matrix, and for `sequence_len = 1` the
single stored gradient has no recursive term. -/
theorem c1_recurrent_gradient_recurrence (l : RecurrentLayer)
    (outW outG : List (List Weight)) (n : Nat) (l' : RecurrentLayer)
    (hn : 1 ≤ n) (hlen : outG.length = n)
    (h : l.compute_gradients outW outG n = some l') :
    l'.computed_recurrent_gradients.getD (n - 1) [] =
      denseGradOf l.recurrent_tree outW (outG.getD (n - 1) []) ∧
    (∀ i, i + 1 < n →
      l'.computed_recurrent_gradients.getD i [] =
        List.zipWith (fun a b => a + b)
          (denseGradOf l.recurrent_tree outW (outG.getD i []))
          (denseGradOf l.recurrent_tree
            (l.recurrent_tree.weights.map fun row => row.take l.state.length)
            (l'.computed_recurrent_gradients.getD (i + 1) []))) ∧
    (n = 1 →
      l'.computed_recurrent_gradients =
        [denseGradOf l.recurrent_tree outW (outG.getD 0 [])]) := by
  obtain ⟨gl, hgl⟩ := compute_gradients_getLast l outW outG n l' h
  have hglD : outG.getD (n - 1) [] = gl := by
    have hx := getLast?_getD outG gl hgl
    rw [hlen] at hx
    exact hx
  obtain ⟨_, hcrg⟩ := compute_gradients_eq l outW outG n l' gl hgl h
  refine ⟨?_, ?_, ?_⟩
  · rw [hcrg, hglD]
    exact pushR_chron_last _ _ _ _ _ _
  · intro i hi
    rw [hcrg]
    exact pushR_chron_rec _ _ _ _ (n - 1) _ i (by omega)
  · intro h1
    subst h1
    rw [hcrg, hglD]
    rfl

/-- Witness for C1: on the concrete layer `wLayer` with a two-step gradient
list, `compute_gradients` succeeds and the stored recurrent gradients
satisfy the recurrence concretely. -/
theorem c1_recurrence_witness :
    ((wLayer.compute_gradients [[1/7]] [[1], [2]] 2).map
      fun x => x.computed_recurrent_gradients.getD 1 []) =
      some (denseGradOf wLayer.recurrent_tree [[1/7]] [2]) ∧
    ((wLayer.compute_gradients [[1/7]] [[1], [2]] 2).map
      fun x => x.computed_recurrent_gradients.getD 0 []) =
      some (List.zipWith (fun a b => a + b)
        (denseGradOf wLayer.recurrent_tree [[1/7]] [1])
        (denseGradOf wLayer.recurrent_tree
          (wLayer.recurrent_tree.weights.map fun row => row.take wLayer.state.length)
          [(2 : Weight)/7])) := by
  cases hc : wLayer.compute_gradients [[1/7]] [[1], [2]] 2 with
  | none =>
    have hs : (wLayer.compute_gradients [[1/7]] [[1], [2]] 2).isSome = true := by decide
    rw [hc] at hs
    cases hs
  | some l' =>
    obtain ⟨h1, h2, _⟩ :=
      c1_recurrent_gradient_recurrence wLayer [[1/7]] [[1], [2]] 2 l'
        (by decide) (by decide) hc
    have hnext : l'.computed_recurrent_gradients.getD 1 [] = [(2 : Weight)/7] := by
      have hs2 : ((wLayer.compute_gradients [[1/7]] [[1], [2]] 2).map
          fun x => x.computed_recurrent_gradients.getD 1 []) =
          some [(2 : Weight)/7] := by
        simp [wLayer, wDense, RecurrentLayer.compute_gradients, cgLoop, cgStep,
          DenseLayer.compute_gradients, denseGradOf, oneFn, idFn, bind,
          List.range_succ, List.range_zero]
        norm_num
      rw [hc] at hs2
      exact Option.some.inj hs2
    norm_num at h1
    have h2' := h2 0 (by omega)
    norm_num at h2'
    rw [List.getD_eq_getElem?_getD] at hnext
    constructor
    · show some (l'.computed_recurrent_gradients.getD 1 []) = _
      rw [List.getD_eq_getElem?_getD, h1]
    · show some (l'.computed_recurrent_gradients.getD 0 []) = _
      rw [List.getD_eq_getElem?_getD, h2', hnext]

/-! ## C2: which gradient entry each step uses, and storage order -/

/-- Counterexample for C2 as stated: with a gradient list of length 2 and
`sequence_len = 1`, the gradient stored for step `sequence_len - 1 = 0` is
computed from the *last* entry `[2]` of the passed list, not from entry
`sequence_len - 1 = 0` (which is `[1]`). -/
theorem c2_counterexample :
    ((wLayer.compute_gradients [[1/7]] [[1], [2]] 1).map
      fun x => x.computed_output_gradients) =
      some [denseGradOf wLayer.output_tree [[1/7]] [2]] ∧
    ((wLayer.compute_gradients [[1/7]] [[1], [2]] 1).map
      fun x => x.computed_output_gradients) ≠
      some [denseGradOf wLayer.output_tree [[1/7]]
        (([[1], [2]] : List (List Weight)).getD 0 [])] := by
  have h0 : ((wLayer.compute_gradients [[1/7]] [[1], [2]] 1).map
      fun x => x.computed_output_gradients) =
      some [denseGradOf wLayer.output_tree [[1/7]] [2]] := rfl
  refine ⟨h0, ?_⟩
  intro h
  rw [h0] at h
  simp only [Option.some.injEq, List.cons.injEq, and_true] at h
  simp [denseGradOf, wLayer, wDense, oneFn, List.range_succ, List.range_zero,
    List.getD] at h

/-- C2 (amended): the backward pass computes step `i`'s gradients from
entry `i` of the passed gradient list for every step `i < sequence_len - 1`,
but computes step `sequence_len - 1`'s gradients from the *last* entry of
the passed list (which is entry `sequence_len - 1` only when the list has
exactly `sequence_len` entries); after the call both gradient histories
have exactly `sequence_len` entries, stored in chronological (forward-time)
order with entry `i` corresponding to step `i`. -/
theorem c2_chronological_order (l : RecurrentLayer) (outW outG : List (List Weight))
    (n : Nat) (l' : RecurrentLayer) (gl : List Weight)
    (hn : 1 ≤ n) (hgl : outG.getLast? = some gl)
    (h : l.compute_gradients outW outG n = some l') :
    l'.computed_output_gradients.length = n ∧
    l'.computed_recurrent_gradients.length = n ∧
    (∀ i, i + 1 < n →
      l'.computed_output_gradients.getD i [] =
        denseGradOf l.output_tree outW (outG.getD i [])) ∧
    l'.computed_output_gradients.getD (n - 1) [] =
      denseGradOf l.output_tree outW gl ∧
    l'.computed_recurrent_gradients.getD (n - 1) [] =
      denseGradOf l.recurrent_tree outW gl := by
  obtain ⟨hcog, hcrg⟩ := compute_gradients_eq l outW outG n l' gl hgl h
  have hclen : (pushC l.output_tree outW outG (n - 1)).reverse.length = n - 1 := by
    rw [List.length_reverse, pushC_length]
  refine ⟨?_, ?_, ?_, ?_, ?_⟩
  · rw [hcog, List.length_append, hclen]
    simp only [List.length_cons, List.length_nil]
    omega
  · rw [hcrg, List.length_append, List.length_reverse, pushR_length]
    simp only [List.length_cons, List.length_nil]
    omega
  · intro i hi
    rw [hcog, List.getD_append _ _ _ _ (by omega)]
    exact pushC_reverse_getD _ _ _ (n - 1) i (by omega)
  · rw [hcog, List.getD_append_right _ _ _ _ (by omega), hclen]
    simp
  · rw [hcrg]
    exact pushR_chron_last _ _ _ _ _ _

/-- Witness for C2 (amended): on the concrete layer `wLayer` with a
two-step gradient list, both histories have two entries, entry 0 comes from
gradient entry 0 and entry 1 from the last gradient entry. -/
theorem c2_order_witness :
    ((wLayer.compute_gradients [[1/7]] [[1], [2]] 2).map
      fun x => (x.computed_output_gradients.length,
        x.computed_recurrent_gradients.length)) = some (2, 2) ∧
    ((wLayer.compute_gradients [[1/7]] [[1], [2]] 2).map
      fun x => x.computed_output_gradients.getD 0 []) =
      some (denseGradOf wLayer.output_tree [[1/7]] [1]) ∧
    ((wLayer.compute_gradients [[1/7]] [[1], [2]] 2).map
      fun x => x.computed_output_gradients.getD 1 []) =
      some (denseGradOf wLayer.output_tree [[1/7]] [2]) := by
  cases hc : wLayer.compute_gradients [[1/7]] [[1], [2]] 2 with
  | none =>
    have hs : (wLayer.compute_gradients [[1/7]] [[1], [2]] 2).isSome = true := by decide
    rw [hc] at hs
    cases hs
  | some l' =>
    obtain ⟨hl1, hl2, h3, h4, _⟩ :=
      c2_chronological_order wLayer [[1/7]] [[1], [2]] 2 l' [2] (by decide) rfl hc
    have h30 := h3 0 (by omega)
    norm_num at h30 h4
    refine ⟨?_, ?_, ?_⟩
    · show some (l'.computed_output_gradients.length,
        l'.computed_recurrent_gradients.length) = _
      rw [hl1, hl2]
    · show some (l'.computed_output_gradients.getD 0 []) = _
      rw [List.getD_eq_getElem?_getD, h30]
    · show some (l'.computed_output_gradients.getD 1 []) = _
      rw [List.getD_eq_getElem?_getD, h4]

/-! ## Weight and bias update characterization -/

theorem getD_zipWith (f : Weight → Weight → Weight) :
    ∀ (a b : List Weight) (i : Nat), i < a.length → i < b.length →
      (List.zipWith f a b).getD i 0 = f (a.getD i 0) (b.getD i 0) := by
  intro a
  induction a with
  | nil =>
    intro b i hi _
    exact absurd hi (Nat.not_lt_zero i)
  | cons x xs ih =>
    intro b i hi hb
    cases b with
    | nil => exact absurd hb (Nat.not_lt_zero i)
    | cons y ys =>
      cases i with
      | zero => rfl
      | succ j =>
        simpa using ih ys j (by simpa using hi) (by simpa using hb)

theorem ubLoop_eq (cog : List (List Weight)) (lr : Weight) :
    ∀ (ss : List Nat) (b b' : List Weight),
      ubLoop cog lr ss b = some b' →
      b'.length = b.length ∧
      ∀ nix, nix < b.length →
        b'.getD nix 0 = b.getD nix 0 +
          ((ss.map fun s => lr * (cog.getD s []).getD nix 0)).sum := by
  intro ss
  induction ss with
  | nil =>
    intro b b' h
    cases h
    simp
  | cons s rest ih =>
    intro b b' h
    rw [ubLoop] at h
    simp only [bind, Option.bind_eq_some] at h
    obtain ⟨g, hg, b1, hb1, hrest⟩ := h
    unfold ubStep at hb1
    simp only [Option.ite_none_right_eq_some, Option.some.injEq] at hb1
    obtain ⟨hlen, hb1⟩ := hb1
    subst hb1
    have hglen : (List.zipWith (fun b g => b + g * lr) b g).length = b.length := by
      rw [List.length_zipWith]
      omega
    obtain ⟨ihlen, ihval⟩ := ih _ b' hrest
    refine ⟨by rw [ihlen, hglen], ?_⟩
    intro nix hnix
    rw [ihval nix (by omega)]
    rw [getD_zipWith _ b g nix hnix (by omega)]
    have hgD : cog.getD s [] = g := by
      rw [List.getD_eq_getElem?_getD, ← List.get?_eq_getElem?, hg]
      rfl
    rw [List.map_cons, List.sum_cons, hgD]
    ring

/-! ## C5: update_biases updates output biases only -/

/-- C5: for every successful `update_biases(learning_rate, sequence_len)`
call, each output_tree bias is incremented by the sum over steps
`0..sequence_len` of `learning_rate * output_gradient[step][neuron]`, and
the recurrent_tree's bias vector is left unchanged (as is the whole
recurrent_tree). -/
theorem c5_update_biases_output_only (l : RecurrentLayer) (lr : Weight) (n : Nat)
    (l' : RecurrentLayer) (h : l.update_biases lr n = some l') :
    (∀ nix, nix < l.output_tree.biases.length →
      l'.output_tree.biases.getD nix 0 =
        l.output_tree.biases.getD nix 0 +
          ((List.range n).map fun s =>
            lr * (l.computed_output_gradients.getD s []).getD nix 0).sum) ∧
    l'.recurrent_tree.biases = l.recurrent_tree.biases ∧
    l'.output_tree.biases.length = l.output_tree.biases.length := by
  unfold RecurrentLayer.update_biases at h
  simp only [bind, Option.bind_eq_some] at h
  obtain ⟨b', hb, h⟩ := h
  cases h
  obtain ⟨hlen, hval⟩ := ubLoop_eq l.computed_output_gradients lr (List.range n)
    l.output_tree.biases b' hb
  exact ⟨hval, rfl, hlen⟩

/-- Witness for C5: on a concrete layer with a one-step gradient history,
`update_biases` adds `lr * gradient` to the output bias and leaves the
recurrent biases unchanged. -/
theorem c5_update_biases_witness :
    ((wNetStale.recurrent_layer.update_biases (1/4) 1).map
      fun x => x.output_tree.biases.getD 0 0) = some ((0 : Weight) + 1/4 * 2) ∧
    ((wNetStale.recurrent_layer.update_biases (1/4) 1).map
      fun x => x.recurrent_tree.biases) =
      some wNetStale.recurrent_layer.recurrent_tree.biases := by
  cases hc : wNetStale.recurrent_layer.update_biases (1/4) 1 with
  | none =>
    have hs : (wNetStale.recurrent_layer.update_biases (1/4) 1).isSome = true := by decide
    rw [hc] at hs
    cases hs
  | some l' =>
    obtain ⟨hval, hrec, _⟩ :=
      c5_update_biases_output_only wNetStale.recurrent_layer (1/4) 1 l' hc
    have h0 := hval 0 (by decide)
    refine ⟨?_, ?_⟩
    · show some (l'.output_tree.biases.getD 0 0) = _
      rw [h0]
      norm_num [wNetStale, wDense, wOutputLayer, List.range_succ, List.range_zero,
        List.getD]
    · show some l'.recurrent_tree.biases = _
      rw [hrec]

theorem updateTreeWeights_eq (lr : Weight) (scratch : List Weight) :
    ∀ (gs : List Weight) (ws ws' : List (List Weight)),
      updateTreeWeights lr scratch gs ws = some ws' →
      ws'.length = ws.length ∧
      (∀ nix, (ws'.getD nix []).length = (ws.getD nix []).length) ∧
      (∀ nix wix, nix < ws.length → wix < (ws.getD nix []).length →
        (ws'.getD nix []).getD wix 0 =
          (ws.getD nix []).getD wix 0 +
            (if nix < gs.length then lr * gs.getD nix 0 * scratch.getD wix 0 else 0)) := by
  intro gs
  induction gs with
  | nil =>
    intro ws ws' h
    cases h
    refine ⟨rfl, fun _ => rfl, ?_⟩
    intro nix wix _ _
    simp
  | cons g gs ih =>
    intro ws ws' h
    cases ws with
    | nil =>
      rw [updateTreeWeights] at h
      cases h
    | cons row rows =>
      rw [updateTreeWeights] at h
      simp only [bind, Option.bind_eq_some] at h
      obtain ⟨row', hrow, rest', hrest, h⟩ := h
      cases h
      unfold updateRow at hrow
      simp only [Option.ite_none_right_eq_some, Option.some.injEq] at hrow
      obtain ⟨hrl, hrow⟩ := hrow
      subst hrow
      obtain ⟨ihl, ihrow, ihval⟩ := ih rows rest' hrest
      refine ⟨by simp [ihl], ?_, ?_⟩
      · intro nix
        cases nix with
        | zero =>
          simp only [List.getD_cons_zero]
          rw [List.length_zipWith]
          omega
        | succ m =>
          simp only [List.getD_cons_succ]
          exact ihrow m
      · intro nix wix hnix hwix
        cases nix with
        | zero =>
          simp only [List.getD_cons_zero] at hwix ⊢
          rw [getD_zipWith _ row scratch wix hwix (by omega)]
          rw [if_pos (by simp)]
        | succ m =>
          simp only [List.getD_cons_succ] at hwix ⊢
          rw [ihval m wix (by simpa using hnix) hwix]
          by_cases hm : m < gs.length
          · rw [if_pos hm, if_pos (by simpa using hm)]
          · rw [if_neg hm, if_neg (by simpa using hm)]

theorem uwScratch1_eq (stateLen : Nat) (prevS : List (List Weight)) (s : Nat)
    (scratch s1 : List Weight) (h : uwScratch1 stateLen prevS s scratch = some s1) :
    s1 = (if s = 0 then scratch else prevS.getD s [] ++ scratch.drop stateLen) ∧
    (s ≠ 0 → (prevS.getD s []).length = stateLen ∧ stateLen ≤ scratch.length) := by
  unfold uwScratch1 at h
  by_cases hs0 : s = 0
  · rw [if_pos hs0] at h
    cases h
    exact ⟨by rw [if_pos hs0], fun hne => absurd hs0 hne⟩
  · rw [if_neg hs0] at h
    rcases hps : prevS.get? s with _ | ps
    · rw [hps] at h
      cases h
    · rw [hps] at h
      simp only [Option.ite_none_right_eq_some, Option.some.injEq] at h
      obtain ⟨⟨hp1, hp2⟩, h⟩ := h
      have hpsD : prevS.getD s [] = ps := by
        rw [List.getD_eq_getElem?_getD, ← List.get?_eq_getElem?, hps]
        rfl
      refine ⟨by rw [if_neg hs0, hpsD, h], fun _ => ⟨by rw [hpsD, hp1], hp2⟩⟩

theorem uwScratch2_eq (stateLen : Nat) (seqI : List (List Weight)) (s : Nat)
    (s1 s2 : List Weight) (h : uwScratch2 stateLen seqI s s1 = some s2) :
    s2 = s1.take stateLen ++ seqI.getD s [] ∧
    stateLen ≤ s1.length ∧ (seqI.getD s []).length = s1.length - stateLen := by
  unfold uwScratch2 at h
  rcases hseq : seqI.get? s with _ | inp
  · rw [hseq] at h
    cases h
  · rw [hseq] at h
    simp only [Option.ite_none_right_eq_some, Option.some.injEq] at h
    obtain ⟨⟨hc1, hc2⟩, h⟩ := h
    have hseqD : seqI.getD s [] = inp := by
      rw [List.getD_eq_getElem?_getD, ← List.get?_eq_getElem?, hseq]
      rfl
    exact ⟨by rw [hseqD, h], hc1, by rw [hseqD]; exact hc2⟩

theorem uwStep_eq (stateLen : Nat) (prevS seqI cog crg : List (List Weight)) (lr : Weight)
    (s : Nat) (st st' : UWState)
    (h : uwStep stateLen prevS seqI cog crg lr s st = some st') :
    st'.scratch =
      (if s = 0 then st.scratch.take stateLen else prevS.getD s []) ++ seqI.getD s [] ∧
    st'.scratch.length = st.scratch.length ∧
    stateLen ≤ st.scratch.length ∧
    updateTreeWeights lr st'.scratch (cog.getD s []) st.output_weights =
      some st'.output_weights ∧
    updateTreeWeights lr st'.scratch (crg.getD s []) st.recurrent_weights =
      some st'.recurrent_weights := by
  unfold uwStep at h
  simp only [bind, Option.bind_eq_some] at h
  obtain ⟨s1, h1, s2, h2, og, hog, ow, how, rg, hrg, rw', hrw, hfin⟩ := h
  cases hfin
  obtain ⟨hs1v, hs1p⟩ := uwScratch1_eq stateLen prevS s st.scratch s1 h1
  obtain ⟨hs2v, hc1, hc2⟩ := uwScratch2_eq stateLen seqI s s1 s2 h2
  have hogD : cog.getD s [] = og := by
    rw [List.getD_eq_getElem?_getD, ← List.get?_eq_getElem?, hog]
    rfl
  have hrgD : crg.getD s [] = rg := by
    rw [List.getD_eq_getElem?_getD, ← List.get?_eq_getElem?, hrg]
    rfl
  by_cases hs0 : s = 0
  · rw [if_pos hs0] at hs1v
    subst hs1v
    refine ⟨by rw [hs2v, if_pos hs0], ?_, by omega, ?_, ?_⟩
    · rw [hs2v]
      simp only [List.length_append, List.length_take]
      omega
    · rw [hogD]
      exact how
    · rw [hrgD]
      exact hrw
  · rw [if_neg hs0] at hs1v
    obtain ⟨hplen, hsl⟩ := hs1p hs0
    subst hs1v
    have htake : (prevS.getD s [] ++ st.scratch.drop stateLen).take stateLen =
        prevS.getD s [] := by
      rw [← hplen]
      exact List.take_left _ _
    have hs1len : (prevS.getD s [] ++ st.scratch.drop stateLen).length =
        st.scratch.length := by
      simp only [List.length_append, List.length_drop]
      omega
    refine ⟨by rw [hs2v, if_neg hs0, htake], ?_, hsl, ?_, ?_⟩
    · rw [hs2v]
      simp only [List.length_append, List.length_take, List.length_drop]
      omega
    · rw [hogD]
      exact how
    · rw [hrgD]
      exact hrw

theorem uwLoop_sum (stateLen : Nat) (prevS seqI cog crg : List (List Weight)) (lr : Weight) :
    ∀ (ss : List Nat) (st st' : UWState),
      uwLoop stateLen prevS seqI cog crg lr ss st = some st' →
      (∀ s ∈ ss, s ≠ 0) →
      (∀ s ∈ ss, (cog.getD s []).length = st.output_weights.length) →
      (∀ s ∈ ss, (crg.getD s []).length = st.recurrent_weights.length) →
      st'.output_weights.length = st.output_weights.length ∧
      st'.recurrent_weights.length = st.recurrent_weights.length ∧
      (∀ nix, (st'.output_weights.getD nix []).length =
        (st.output_weights.getD nix []).length) ∧
      (∀ nix, (st'.recurrent_weights.getD nix []).length =
        (st.recurrent_weights.getD nix []).length) ∧
      (∀ nix wix, nix < st.output_weights.length →
        wix < (st.output_weights.getD nix []).length →
        (st'.output_weights.getD nix []).getD wix 0 =
          (st.output_weights.getD nix []).getD wix 0 +
            (ss.map fun s => lr * (cog.getD s []).getD nix 0 *
              ((prevS.getD s [] ++ seqI.getD s []).getD wix 0)).sum) ∧
      (∀ nix wix, nix < st.recurrent_weights.length →
        wix < (st.recurrent_weights.getD nix []).length →
        (st'.recurrent_weights.getD nix []).getD wix 0 =
          (st.recurrent_weights.getD nix []).getD wix 0 +
            (ss.map fun s => lr * (crg.getD s []).getD nix 0 *
              ((prevS.getD s [] ++ seqI.getD s []).getD wix 0)).sum) := by
  intro ss
  induction ss with
  | nil =>
    intro st st' h _ _ _
    cases h
    refine ⟨rfl, rfl, fun _ => rfl, fun _ => rfl, ?_, ?_⟩ <;>
      exact fun nix wix _ _ => by simp
  | cons s rest ih =>
    intro st st' h hpos hcog hcrg
    rw [uwLoop] at h
    simp only [bind, Option.bind_eq_some] at h
    obtain ⟨st1, hstep, hrest⟩ := h
    obtain ⟨hscr, hslen, hstSL, how, hrw⟩ :=
      uwStep_eq stateLen prevS seqI cog crg lr s st st1 hstep
    rw [if_neg (hpos s (by simp))] at hscr
    obtain ⟨howl, howrow, howval⟩ :=
      updateTreeWeights_eq lr st1.scratch (cog.getD s []) st.output_weights
        st1.output_weights how
    obtain ⟨hrwl, hrwrow, hrwval⟩ :=
      updateTreeWeights_eq lr st1.scratch (crg.getD s []) st.recurrent_weights
        st1.recurrent_weights hrw
    obtain ⟨ihl1, ihl2, ihrow1, ihrow2, ihval1, ihval2⟩ := ih st1 st' hrest
      (fun x hx => hpos x (List.mem_cons_of_mem _ hx))
      (fun x hx => by
        rw [howl]
        exact hcog x (List.mem_cons_of_mem _ hx))
      (fun x hx => by
        rw [hrwl]
        exact hcrg x (List.mem_cons_of_mem _ hx))
    refine ⟨ihl1.trans howl, ihl2.trans hrwl,
      fun nix => (ihrow1 nix).trans (howrow nix),
      fun nix => (ihrow2 nix).trans (hrwrow nix), ?_, ?_⟩
    · intro nix wix hnix hwix
      rw [ihval1 nix wix (by rw [howl]; exact hnix) (by rw [howrow]; exact hwix)]
      rw [howval nix wix hnix hwix]
      rw [if_pos (by rw [hcog s (by simp)]; exact hnix)]
      rw [hscr, List.map_cons, List.sum_cons]
      ring
    · intro nix wix hnix hwix
      rw [ihval2 nix wix (by rw [hrwl]; exact hnix) (by rw [hrwrow]; exact hwix)]
      rw [hrwval nix wix hnix hwix]
      rw [if_pos (by rw [hcrg s (by simp)]; exact hnix)]
      rw [hscr, List.map_cons, List.sum_cons]
      ring

/-! ## C3: update_weights accumulates per-step contributions -/

/-- C3: for every successful `update_weights(learning_rate, sequence_len)`
call whose per-step gradient vectors cover every neuron, each weight of
both output_tree and recurrent_tree is incremented by the sum over all
steps `0..sequence_len` of
`learning_rate * neuron_gradient[step][neuron] * combined_input[weight_index]`,
where the combined input of a step is the recorded state-before-step
(all-zero for step 0) concatenated with the recorded input at that step;
contributions accumulate into the same weight rather than overwriting it. -/
theorem c3_update_weights_accumulates (l : RecurrentLayer) (lr : Weight) (n : Nat)
    (l' : RecurrentLayer)
    (h : l.update_weights lr n = some l')
    (hcog : ∀ s, s < n →
      (l.computed_output_gradients.getD s []).length = l.output_tree.weights.length)
    (hcrg : ∀ s, s < n →
      (l.computed_recurrent_gradients.getD s []).length =
        l.recurrent_tree.weights.length) :
    (∀ nix wix, nix < l.output_tree.weights.length →
      wix < (l.output_tree.weights.getD nix []).length →
      (l'.output_tree.weights.getD nix []).getD wix 0 =
        (l.output_tree.weights.getD nix []).getD wix 0 +
          ((List.range n).map fun s =>
            lr * (l.computed_output_gradients.getD s []).getD nix 0 *
              ((l.combinedInputAt s).getD wix 0)).sum) ∧
    (∀ nix wix, nix < l.recurrent_tree.weights.length →
      wix < (l.recurrent_tree.weights.getD nix []).length →
      (l'.recurrent_tree.weights.getD nix []).getD wix 0 =
        (l.recurrent_tree.weights.getD nix []).getD wix 0 +
          ((List.range n).map fun s =>
            lr * (l.computed_recurrent_gradients.getD s []).getD nix 0 *
              ((l.combinedInputAt s).getD wix 0)).sum) := by
  unfold RecurrentLayer.update_weights at h
  simp only [bind, Option.bind_eq_some] at h
  obtain ⟨stF, hloop, h⟩ := h
  cases h
  cases n with
  | zero =>
    cases hloop
    exact ⟨fun nix wix _ _ => by simp, fun nix wix _ _ => by simp⟩
  | succ m =>
    rw [List.range_succ_eq_map, uwLoop] at hloop
    simp only [bind, Option.bind_eq_some] at hloop
    obtain ⟨st1, hstep0, hrest⟩ := hloop
    obtain ⟨hscr, hslen, hsl, how, hrw⟩ :=
      uwStep_eq l.state.length l.prev_states l.sequence_inputs
        l.computed_output_gradients l.computed_recurrent_gradients lr 0 _ st1 hstep0
    rw [if_pos rfl] at hscr
    have hsl' : l.state.length ≤ l.combined_inputs_scratch.length := by
      simpa using hsl
    have hcomb0 : st1.scratch = l.combinedInputAt 0 := by
      rw [hscr, RecurrentLayer.combinedInputAt, if_pos rfl]
      congr 1
      rw [List.take_replicate]
      congr 1
      omega
    obtain ⟨howl, howrow, howval⟩ :=
      updateTreeWeights_eq lr st1.scratch (l.computed_output_gradients.getD 0 [])
        l.output_tree.weights st1.output_weights how
    obtain ⟨hrwl, hrwrow, hrwval⟩ :=
      updateTreeWeights_eq lr st1.scratch (l.computed_recurrent_gradients.getD 0 [])
        l.recurrent_tree.weights st1.recurrent_weights hrw
    obtain ⟨_, _, _, _, ihval1, ihval2⟩ :=
      uwLoop_sum l.state.length l.prev_states l.sequence_inputs
        l.computed_output_gradients l.computed_recurrent_gradients lr
        ((List.range m).map Nat.succ) st1 stF hrest
        (by
          rintro x hx
          obtain ⟨k, _, rfl⟩ := List.mem_map.1 hx
          exact Nat.succ_ne_zero k)
        (by
          rintro x hx
          obtain ⟨k, hk, rfl⟩ := List.mem_map.1 hx
          rw [howl]
          exact hcog _ (by simpa using List.mem_range.1 hk))
        (by
          rintro x hx
          obtain ⟨k, hk, rfl⟩ := List.mem_map.1 hx
          rw [hrwl]
          exact hcrg _ (by simpa using List.mem_range.1 hk))
    constructor
    · intro nix wix hnix hwix
      rw [ihval1 nix wix (by rw [howl]; exact hnix) (by rw [howrow]; exact hwix)]
      rw [howval nix wix hnix hwix]
      rw [if_pos (by rw [hcog 0 (Nat.succ_pos m)]; exact hnix)]
      rw [hcomb0]
      rw [List.range_succ_eq_map, List.map_cons, List.sum_cons]
      have hmapeq : ((List.range m).map Nat.succ).map
          (fun s => lr * (l.computed_output_gradients.getD s []).getD nix 0 *
            ((l.prev_states.getD s [] ++ l.sequence_inputs.getD s []).getD wix 0)) =
          ((List.range m).map Nat.succ).map
          (fun s => lr * (l.computed_output_gradients.getD s []).getD nix 0 *
            ((l.combinedInputAt s).getD wix 0)) := by
        refine List.map_congr_left ?_
        rintro x hx
        obtain ⟨k, _, rfl⟩ := List.mem_map.1 hx
        rw [RecurrentLayer.combinedInputAt, if_neg (Nat.succ_ne_zero k)]
      rw [hmapeq]
      ring
    · intro nix wix hnix hwix
      rw [ihval2 nix wix (by rw [hrwl]; exact hnix) (by rw [hrwrow]; exact hwix)]
      rw [hrwval nix wix hnix hwix]
      rw [if_pos (by rw [hcrg 0 (Nat.succ_pos m)]; exact hnix)]
      rw [hcomb0]
      rw [List.range_succ_eq_map, List.map_cons, List.sum_cons]
      have hmapeq : ((List.range m).map Nat.succ).map
          (fun s => lr * (l.computed_recurrent_gradients.getD s []).getD nix 0 *
            ((l.prev_states.getD s [] ++ l.sequence_inputs.getD s []).getD wix 0)) =
          ((List.range m).map Nat.succ).map
          (fun s => lr * (l.computed_recurrent_gradients.getD s []).getD nix 0 *
            ((l.combinedInputAt s).getD wix 0)) := by
        refine List.map_congr_left ?_
        rintro x hx
        obtain ⟨k, _, rfl⟩ := List.mem_map.1 hx
        rw [RecurrentLayer.combinedInputAt, if_neg (Nat.succ_ne_zero k)]
      rw [hmapeq]
      ring

/-- Witness for C3: on a concrete layer with one recorded step
(gradient 2 for the output neuron, 3 for the recurrent neuron, input 6,
all-zero state part for step 0), `update_weights` with learning rate 1/4
adds exactly `lr * gradient * combined_input` to each weight. -/
theorem c3_update_weights_witness :
    ((wNetStale.recurrent_layer.update_weights (1/4) 1).map
      fun x => (x.output_tree.weights.getD 0 []).getD 1 0) =
      some ((1 : Weight)/5 + 1/4 * 2 * 6) ∧
    ((wNetStale.recurrent_layer.update_weights (1/4) 1).map
      fun x => (x.recurrent_tree.weights.getD 0 []).getD 0 0) =
      some ((1 : Weight)/2 + 1/4 * 3 * 0) := by
  cases hc : wNetStale.recurrent_layer.update_weights (1/4) 1 with
  | none =>
    have hs : (wNetStale.recurrent_layer.update_weights (1/4) 1).isSome = true := by
      decide
    rw [hc] at hs
    cases hs
  | some l' =>
    obtain ⟨hval1, hval2⟩ :=
      c3_update_weights_accumulates wNetStale.recurrent_layer (1/4) 1 l' hc
        (by decide) (by decide)
    have h1 := hval1 0 1 (by decide) (by decide)
    have h2 := hval2 0 0 (by decide) (by decide)
    refine ⟨?_, ?_⟩
    · show some ((l'.output_tree.weights.getD 0 []).getD 1 0) = _
      rw [h1]
      norm_num [wNetStale, wDense, wOutputLayer, RecurrentLayer.combinedInputAt,
        List.range_succ, List.range_zero, List.getD]
    · show some ((l'.recurrent_tree.weights.getD 0 []).getD 0 0) = _
      rw [h2]
      norm_num [wNetStale, wDense, wOutputLayer, RecurrentLayer.combinedInputAt,
        List.range_succ, List.range_zero, List.getD]

/-! ## C7: train_one_sequence returns the pre-update average cost -/

theorem olUpdateLoop_costs (lr : Weight) :
    ∀ (ins : List (List Weight)) (ol : OutputLayer),
      (olUpdateLoop lr ins ol).costs = ol.costs := by
  intro ins
  induction ins with
  | nil => intro ol; rfl
  | cons inp rest ih =>
    intro ol
    rw [olUpdateLoop]
    rw [ih]
    rfl

/-- C7: the value returned by a successful `train_one_sequence` call equals
the total cost accumulated by the forward pass it ran first — i.e. computed
with the weights as they were before this call's updates — divided by the
number of output-layer cost entries and by the sequence length. -/
theorem c7_pre_update_average_cost (net : RecurrentNetwork)
    (sequence : List (List Weight)) (expected : List (Option (List Weight)))
    (lr : Weight) (c tc : Weight) (m : Nat)
    (htrain : (net.train_one_sequence sequence expected lr).map Prod.fst = some c)
    (hfp : (net.forward_propagate sequence (some expected)).map
      (fun r => (r.1, r.2.2.output_layer.costs.length)) = some (tc, m)) :
    c = tc / (m : Weight) / (sequence.length : Weight) := by
  unfold RecurrentNetwork.train_one_sequence at htrain
  by_cases hlen : sequence.length = expected.length
  · rw [if_pos hlen] at htrain
    rcases hf : net.forward_propagate sequence (some expected) with _ | r
    · rw [hf] at hfp
      simp at hfp
    · rw [hf] at htrain hfp
      simp only [Option.map_some', Option.some.injEq, Prod.mk.injEq] at hfp
      obtain ⟨htc, hm⟩ := hfp
      simp only [Option.map_eq_some'] at htrain
      obtain ⟨p, htr, hcfst⟩ := htrain
      simp only [bind, Option.some_bind, Option.bind_eq_some] at htr
      obtain ⟨rl2, hrl2, htr⟩ := htr
      split at htr
      · simp only [bind, Option.bind_eq_some] at htr
        obtain ⟨rl3, hrl3, rl4, hrl4, hfin⟩ := htr
        cases hfin
        rw [← hcfst]
        show r.1 / ((olUpdateLoop lr _ _).costs.length : Weight) /
          (sequence.length : Weight) = _
        rw [olUpdateLoop_costs]
        rw [htc, ← hm]
      · cases htr
  · rw [if_neg hlen] at htrain
    simp at htrain

/-- Witness for C7: on the concrete network `wNet` trained on a one-step
sequence, the returned cost is the forward pass's total cost divided by the
single cost entry and the sequence length. -/
theorem c7_pre_update_witness :
    (RecurrentNetwork.train_one_sequence wNet [[1]] [some [0]] (1/4)).map Prod.fst =
      some ((1 : Weight)/1225 / ((1 : Nat) : Weight) / ((1 : Nat) : Weight)) := by
  have hfp : (wNet.forward_propagate [[1]] (some [some [0]])).map
      (fun r => (r.1, r.2.2.output_layer.costs.length)) = some ((1 : Weight)/1225, 1) := by
    simp [RecurrentNetwork.forward_propagate, fpLoop, fpStep,
      RecurrentLayer.forward_propagate, RecurrentLayer.reset, RecurrentLayer.get_outputs,
      setOrPush, DenseLayer.forward_propagate, dotInputs, OutputLayer.forward_propagate,
      OutputLayer.compute_costs, OutputLayer.compute_gradients, sqErr, sqErrDeriv,
      idFn, oneFn, wNet, wLayer, wDense, wOutputLayer, bind]
    norm_num
  cases hc : (RecurrentNetwork.train_one_sequence wNet [[1]] [some [0]] (1/4)).map
      Prod.fst with
  | none =>
    have hs : (RecurrentNetwork.train_one_sequence wNet [[1]] [some [0]]
        (1/4)).isSome = true := by decide
    rcases ht : RecurrentNetwork.train_one_sequence wNet [[1]] [some [0]] (1/4) with _ | p
    · rw [ht] at hs
      cases hs
    · rw [ht] at hc
      simp at hc
  | some c =>
    have hrel := c7_pre_update_average_cost wNet [[1]] [some [0]] (1/4) c
      ((1 : Weight)/1225) 1 hc hfp
    rw [hrel]
    norm_num

/-! ## Determinism of predict -/

theorem setOrPush_spec (buf : List (List Weight)) (k : Nat) (src : List Weight)
    (out : List (List Weight))
    (hk : k ≤ buf.length) (h : setOrPush buf k src = some out) :
    (∀ j, j < k → out.getD j [] = buf.getD j []) ∧
    out.getD k [] = src ∧
    k + 1 ≤ out.length := by
  unfold setOrPush at h
  rcases hbk : buf.get? k with _ | slot
  · rw [hbk] at h
    cases h
    have hkl : buf.length = k := by
      have := List.get?_eq_none.1 hbk
      omega
    refine ⟨?_, ?_, ?_⟩
    · intro j hj
      rw [List.getD_append _ _ _ _ (by omega)]
    · rw [List.getD_append_right _ _ _ _ (by omega), hkl]
      simp
    · rw [List.length_append, hkl]
      simp
  · rw [hbk] at h
    simp only [Option.ite_none_right_eq_some, Option.some.injEq] at h
    obtain ⟨_, h⟩ := h
    subst h
    have hkb : k < buf.length := by
      have := List.get?_eq_some.1 hbk
      exact this.1
    refine ⟨?_, ?_, ?_⟩
    · intro j hj
      rw [List.getD_eq_getElem?_getD, List.getD_eq_getElem?_getD,
        List.getElem?_set_ne (by omega)]
    · rw [List.getD_eq_getElem?_getD, List.getElem?_set_self',
        List.getElem?_eq_getElem hkb]
      rfl
    · rw [List.length_set]
      omega

theorem denseForward_outputs_eq (d1 d2 : DenseLayer) (inputs : List Weight)
    (h : denseSemEq d1 d2) :
    (d1.forward_propagate inputs).outputs = (d2.forward_propagate inputs).outputs := by
  obtain ⟨hw, hb, ha, _⟩ := h
  show (List.zipWith (fun row b => dotInputs row inputs + b)
      d1.weights d1.biases).map d1.activation = _
  rw [hw, hb, ha]
  rfl

theorem denseForward_semEq (d1 d2 : DenseLayer) (inputs : List Weight)
    (h : denseSemEq d1 d2) :
    denseSemEq (d1.forward_propagate inputs) (d2.forward_propagate inputs) :=
  h

theorem denseForward_semEq_self (d : DenseLayer) (inputs : List Weight) :
    denseSemEq d (d.forward_propagate inputs) :=
  ⟨rfl, rfl, rfl, rfl⟩

theorem olForward_outputs_eq (o1 o2 : OutputLayer) (inputs : List Weight)
    (hw : o1.weights = o2.weights) (hb : o1.biases = o2.biases)
    (ha : o1.activation = o2.activation) :
    (o1.forward_propagate inputs).outputs = (o2.forward_propagate inputs).outputs := by
  show (List.zipWith (fun row b => dotInputs row inputs + b)
      o1.weights o1.biases).map o1.activation = _
  rw [hw, hb, ha]
  rfl

theorem rl_forward_eq (l : RecurrentLayer) (inputs : List Weight) (idx : Nat)
    (l' : RecurrentLayer) (h : l.forward_propagate inputs idx = some l') :
    l'.output_tree = l.output_tree.forward_propagate (l.state ++ inputs) ∧
    l'.recurrent_tree = l.recurrent_tree.forward_propagate (l.state ++ inputs) ∧
    l'.state = (l.recurrent_tree.forward_propagate (l.state ++ inputs)).outputs ∧
    l'.state.length = l.state.length ∧
    l'.combined_inputs_scratch.length = l.combined_inputs_scratch.length := by
  unfold RecurrentLayer.forward_propagate at h
  split at h
  · rename_i hlen
    simp only [bind, Option.bind_eq_some] at h
    obtain ⟨ps, _, si, _, h⟩ := h
    split at h
    · rename_i hrt
      cases h
      refine ⟨rfl, rfl, rfl, hrt, ?_⟩
      show (l.state ++ inputs).length = _
      rw [List.length_append]
      exact hlen
    · cases h
  · cases h

theorem take_eq_of_getD (A B : List (List Weight)) (n : Nat) (hA : n ≤ A.length)
    (hB : n ≤ B.length) (h : ∀ j, j < n → A.getD j [] = B.getD j []) :
    A.take n = B.take n := by
  apply List.ext_get?
  intro i
  rcases Nat.lt_or_ge i n with hi | hi
  · rw [List.get?_take hi, List.get?_take hi]
    have hiA : i < A.length := by omega
    have hiB : i < B.length := by omega
    have hv := h i hi
    rw [List.getD_eq_getElem?_getD, List.getElem?_eq_getElem hiA,
      List.getD_eq_getElem?_getD, List.getElem?_eq_getElem hiB] at hv
    rw [List.get?_eq_getElem?, List.get?_eq_getElem?,
      List.getElem?_eq_getElem hiA, List.getElem?_eq_getElem hiB]
    simpa using hv
  · have : (A.take n).get? i = none := by
      rw [List.get?_eq_getElem?]
      apply List.getElem?_eq_none
      rw [List.length_take]
      omega
    have hbn : (B.take n).get? i = none := by
      rw [List.get?_eq_getElem?]
      apply List.getElem?_eq_none
      rw [List.length_take]
      omega
    rw [this, hbn]

theorem netSemEq_refl (a : RecurrentNetwork) : netSemEq a a :=
  ⟨rfl, rfl, ⟨rfl, rfl, rfl, rfl⟩, ⟨rfl, rfl, rfl, rfl⟩, rfl, rfl, rfl, rfl, rfl, rfl⟩

theorem netSemEq_trans (a b c : RecurrentNetwork)
    (h1 : netSemEq a b) (h2 : netSemEq b c) : netSemEq a c := by
  obtain ⟨a1, a2, ⟨a3, a4, a5, a6⟩, ⟨a7, a8, a9, a10⟩, a11, a12, a13, a14, a15, a16⟩ := h1
  obtain ⟨b1, b2, ⟨b3, b4, b5, b6⟩, ⟨b7, b8, b9, b10⟩, b11, b12, b13, b14, b15, b16⟩ := h2
  exact ⟨a1.trans b1, a2.trans b2,
    ⟨a3.trans b3, a4.trans b4, a5.trans b5, a6.trans b6⟩,
    ⟨a7.trans b7, a8.trans b8, a9.trans b9, a10.trans b10⟩,
    a11.trans b11, a12.trans b12, a13.trans b13, a14.trans b14,
    a15.trans b15, a16.trans b16⟩

theorem fpStep_det (k : Nat) (ex : List Weight) (a b a1 b1 : FPState)
    (hsem : netSemEq a.net b.net)
    (hstate : a.net.recurrent_layer.state = b.net.recurrent_layer.state)
    (hka : k ≤ a.net.outputs.length) (hkb : k ≤ b.net.outputs.length)
    (hout : ∀ j, j < k → a.net.outputs.getD j [] = b.net.outputs.getD j [])
    (ha : fpStep none k ex a = some a1) (hb : fpStep none k ex b = some b1) :
    netSemEq a1.net b1.net ∧
    a1.net.recurrent_layer.state = b1.net.recurrent_layer.state ∧
    (k + 1 ≤ a1.net.outputs.length ∧ k + 1 ≤ b1.net.outputs.length) ∧
    (∀ j, j < k + 1 → a1.net.outputs.getD j [] = b1.net.outputs.getD j []) := by
  obtain ⟨hsl, hscl, hrsem, hosem, hw, hbias, hact, hactd, hcf, hcd⟩ := hsem
  unfold fpStep at ha hb
  simp only [bind, Option.bind_eq_some] at ha hb
  obtain ⟨rlA, hrlA, outsA, houtsA, rloA, hrloA, hfinA⟩ := ha
  obtain ⟨rlB, hrlB, outsB, houtsB, rloB, hrloB, hfinB⟩ := hb
  cases hfinA
  cases hfinB
  obtain ⟨hotA, hrtA, hstA, hstlA, hscrA⟩ := rl_forward_eq _ _ _ _ hrlA
  obtain ⟨hotB, hrtB, hstB, hstlB, hscrB⟩ := rl_forward_eq _ _ _ _ hrlB
  have hstEq : rlA.state = rlB.state := by
    rw [hstA, hstB, hstate]
    exact denseForward_outputs_eq _ _ _ hrsem
  have hgoutEq : rlA.get_outputs = rlB.get_outputs := by
    show rlA.output_tree.outputs = rlB.output_tree.outputs
    rw [hotA, hotB, hstate]
    exact denseForward_outputs_eq _ _ _ hosem
  have holEq : (a.net.output_layer.forward_propagate rlA.get_outputs).outputs =
      (b.net.output_layer.forward_propagate rlB.get_outputs).outputs := by
    rw [hgoutEq]
    exact olForward_outputs_eq _ _ _ hw hbias hact
  obtain ⟨hpresA, hkA, hlenA⟩ := setOrPush_spec _ _ _ _ hka houtsA
  obtain ⟨hpresB, hkB, hlenB⟩ := setOrPush_spec _ _ _ _ hkb houtsB
  refine ⟨?_, hstEq, ⟨hlenA, hlenB⟩, ?_⟩
  · refine ⟨?_, ?_, ?_, ?_, hw, hbias, hact, hactd, hcf, hcd⟩
    · show rlA.state.length = rlB.state.length
      rw [hstEq]
    · show rlA.combined_inputs_scratch.length = rlB.combined_inputs_scratch.length
      rw [hscrA, hscrB]
      exact hscl
    · show denseSemEq rlA.recurrent_tree rlB.recurrent_tree
      rw [hrtA, hrtB, hstate]
      exact denseForward_semEq _ _ _ hrsem
    · show denseSemEq rlA.output_tree rlB.output_tree
      rw [hotA, hotB, hstate]
      exact denseForward_semEq _ _ _ hosem
  · intro j hj
    show outsA.getD j [] = outsB.getD j []
    rcases Nat.lt_or_ge j k with hjk | hjk
    · rw [hpresA j hjk, hpresB j hjk]
      exact hout j hjk
    · have hjeq : j = k := by omega
      subst hjeq
      rw [hkA, hkB]
      exact holEq

theorem fpLoop_det :
    ∀ (seq : List (List Weight)) (k : Nat) (a b fa fb : FPState),
      netSemEq a.net b.net →
      a.net.recurrent_layer.state = b.net.recurrent_layer.state →
      k ≤ a.net.outputs.length → k ≤ b.net.outputs.length →
      (∀ j, j < k → a.net.outputs.getD j [] = b.net.outputs.getD j []) →
      fpLoop none k seq a = some fa →
      fpLoop none k seq b = some fb →
      netSemEq fa.net fb.net ∧
      (k + seq.length ≤ fa.net.outputs.length ∧
        k + seq.length ≤ fb.net.outputs.length) ∧
      (∀ j, j < k + seq.length → fa.net.outputs.getD j [] = fb.net.outputs.getD j []) := by
  intro seq
  induction seq with
  | nil =>
    intro k a b fa fb hsem _ hka hkb hout ha hb
    cases ha
    cases hb
    exact ⟨hsem, ⟨by simpa using hka, by simpa using hkb⟩, by simpa using hout⟩
  | cons ex rest ih =>
    intro k a b fa fb hsem hstate hka hkb hout ha hb
    rw [fpLoop] at ha hb
    simp only [bind, Option.bind_eq_some] at ha hb
    obtain ⟨a1, hsa, ha⟩ := ha
    obtain ⟨b1, hsb, hb⟩ := hb
    obtain ⟨hsem1, hstate1, ⟨hka1, hkb1⟩, hout1⟩ :=
      fpStep_det k ex a b a1 b1 hsem hstate hka hkb hout hsa hsb
    obtain ⟨hsemF, ⟨hlenA, hlenB⟩, houtF⟩ :=
      ih (k + 1) a1 b1 fa fb hsem1 hstate1 hka1 hkb1 hout1 ha hb
    refine ⟨hsemF, ⟨?_, ?_⟩, ?_⟩
    · simp only [List.length_cons]
      omega
    · simp only [List.length_cons]
      omega
    · intro j hj
      apply houtF
      simp only [List.length_cons] at hj
      omega

theorem fpStep_sem (k : Nat) (ex : List Weight) (a a1 : FPState)
    (h : fpStep none k ex a = some a1) : netSemEq a.net a1.net := by
  unfold fpStep at h
  simp only [bind, Option.bind_eq_some] at h
  obtain ⟨rlA, hrlA, outsA, _, rloA, _, hfin⟩ := h
  cases hfin
  obtain ⟨hot, hrt, _, hstl, hscr⟩ := rl_forward_eq _ _ _ _ hrlA
  refine ⟨hstl.symm, hscr.symm, ?_, ?_, rfl, rfl, rfl, rfl, rfl, rfl⟩
  · show denseSemEq a.net.recurrent_layer.recurrent_tree rlA.recurrent_tree
    rw [hrt]
    exact denseForward_semEq_self _ _
  · show denseSemEq a.net.recurrent_layer.output_tree rlA.output_tree
    rw [hot]
    exact denseForward_semEq_self _ _

theorem fpLoop_sem :
    ∀ (seq : List (List Weight)) (k : Nat) (a fa : FPState),
      fpLoop none k seq a = some fa → netSemEq a.net fa.net := by
  intro seq
  induction seq with
  | nil =>
    intro k a fa h
    cases h
    exact netSemEq_refl _
  | cons ex rest ih =>
    intro k a fa h
    rw [fpLoop] at h
    simp only [bind, Option.bind_eq_some] at h
    obtain ⟨a1, hs, h⟩ := h
    exact netSemEq_trans _ _ _ (fpStep_sem k ex a a1 hs) (ih (k + 1) a1 fa h)

theorem predict_eq (net : RecurrentNetwork) (seq : List (List Weight))
    (r : List (List Weight) × RecurrentNetwork) (h : net.predict seq = some r) :
    ∃ stF, fpLoop none 0 seq
      { net := { net with recurrent_layer := net.recurrent_layer.reset }
        total_costs := 0, output_gradients := [] } = some stF ∧
      seq.length ≤ stF.net.outputs.length ∧
      r.1 = stF.net.outputs.take seq.length ∧ r.2 = stF.net := by
  unfold RecurrentNetwork.predict RecurrentNetwork.forward_propagate at h
  simp only [bind, Option.bind_eq_some] at h
  obtain ⟨rr, ⟨stF, hloop, hrr⟩, h⟩ := h
  cases hrr
  split at h
  · rename_i hle
    cases h
    exact ⟨stF, hloop, hle, rfl, rfl⟩
  · cases h

/-! ## C9: predict is deterministic -/

/-- C9: `predict` is deterministic — two predict calls on networks with
identical behavior-determining fields (all weights, biases, activation and
cost functions, and dimensions; the mutable state, history buffers and
transient buffers may differ arbitrarily) over the same input sequence
return identical per-step output sequences; and `predict` itself preserves
those behavior-determining fields, so two successive calls on the same
instance fall under the first part. -/
theorem c9_predict_deterministic :
    (∀ (n1 n2 : RecurrentNetwork) (seq o1 o2 : List (List Weight)),
      netSemEq n1 n2 →
      (n1.predict seq).map Prod.fst = some o1 →
      (n2.predict seq).map Prod.fst = some o2 →
      o1 = o2) ∧
    (∀ (net : RecurrentNetwork) (seq : List (List Weight))
      (r : List (List Weight) × RecurrentNetwork),
      net.predict seq = some r → netSemEq net r.2) := by
  constructor
  · intro n1 n2 seq o1 o2 hsem h1 h2
    rcases hp1 : n1.predict seq with _ | p1
    · rw [hp1] at h1
      simp at h1
    · rw [hp1] at h1
      rcases hp2 : n2.predict seq with _ | p2
      · rw [hp2] at h2
        simp at h2
      · rw [hp2] at h2
        simp only [Option.map_some', Option.some.injEq] at h1 h2
        obtain ⟨sa, hla, hlena, ho1, _⟩ := predict_eq n1 seq p1 hp1
        obtain ⟨sb, hlb, hlenb, ho2, _⟩ := predict_eq n2 seq p2 hp2
        have hsem0 : netSemEq { n1 with recurrent_layer := n1.recurrent_layer.reset }
            { n2 with recurrent_layer := n2.recurrent_layer.reset } := by
          obtain ⟨e1, e2, e3, e4, e5, e6, e7, e8, e9, e10⟩ := hsem
          refine ⟨?_, e2, e3, e4, e5, e6, e7, e8, e9, e10⟩
          show (n1.recurrent_layer.state.map fun _ => (0 : Weight)).length =
            (n2.recurrent_layer.state.map fun _ => (0 : Weight)).length
          rw [List.length_map, List.length_map]
          exact e1
        have hstate0 : ({ n1 with recurrent_layer := n1.recurrent_layer.reset } :
            RecurrentNetwork).recurrent_layer.state =
            ({ n2 with recurrent_layer := n2.recurrent_layer.reset } :
            RecurrentNetwork).recurrent_layer.state := by
          show n1.recurrent_layer.state.map (fun _ => (0 : Weight)) =
            n2.recurrent_layer.state.map fun _ => (0 : Weight)
          rw [List.map_const', List.map_const', hsem.1]
        obtain ⟨_, ⟨hfla, hflb⟩, houtF⟩ := fpLoop_det seq 0
          { net := { n1 with recurrent_layer := n1.recurrent_layer.reset }
            total_costs := 0, output_gradients := [] }
          { net := { n2 with recurrent_layer := n2.recurrent_layer.reset }
            total_costs := 0, output_gradients := [] }
          sa sb hsem0 hstate0 (Nat.zero_le _) (Nat.zero_le _)
          (fun j hj => absurd hj (Nat.not_lt_zero j)) hla hlb
        rw [← h1, ← h2, ho1, ho2]
        apply take_eq_of_getD
        · exact hlena
        · exact hlenb
        · intro j hj
          apply houtF
          omega
  · intro net seq r h
    obtain ⟨stF, hloop, _, _, hr2⟩ := predict_eq net seq r h
    have hrs : netSemEq net { net with recurrent_layer := net.recurrent_layer.reset } := by
      refine ⟨?_, rfl, ⟨rfl, rfl, rfl, rfl⟩, ⟨rfl, rfl, rfl, rfl⟩,
        rfl, rfl, rfl, rfl, rfl, rfl⟩
      show net.recurrent_layer.state.length =
        (net.recurrent_layer.state.map fun _ => (0 : Weight)).length
      rw [List.length_map]
    rw [hr2]
    exact netSemEq_trans _ _ _ hrs (fpLoop_sem seq 0 _ stF hloop)

/-- Witness for C9: `wNet` (fresh histories) and `wNetStale` (same weights
and biases, different state, stale histories and transients) predict the
same outputs on a concrete two-step sequence. -/
theorem c9_determinism_witness :
    (wNet.predict [[1], [2]]).map Prod.fst = (wNetStale.predict [[1], [2]]).map Prod.fst := by
  have h1 : (wNet.predict [[1], [2]]).map Prod.fst =
      some [[(1 : Weight)/35], [(29 : Weight)/420]] := by
    simp [RecurrentNetwork.predict, RecurrentNetwork.forward_propagate, fpLoop, fpStep,
      RecurrentLayer.forward_propagate, RecurrentLayer.reset, RecurrentLayer.get_outputs,
      setOrPush, DenseLayer.forward_propagate, dotInputs, OutputLayer.forward_propagate,
      idFn, oneFn, wNet, wLayer, wDense, wOutputLayer, bind]
    norm_num
  cases hc2 : (wNetStale.predict [[1], [2]]).map Prod.fst with
  | none =>
    have hs : (wNetStale.predict [[1], [2]]).isSome = true := by decide
    rcases hp : wNetStale.predict [[1], [2]] with _ | p
    · rw [hp] at hs
      cases hs
    · rw [hp] at hc2
      simp at hc2
  | some o2 =>
    have hkey := c9_predict_deterministic.1 wNet wNetStale [[1], [2]]
      [[(1 : Weight)/35], [(29 : Weight)/420]] o2
      ⟨rfl, rfl, ⟨rfl, rfl, rfl, rfl⟩, ⟨rfl, rfl, rfl, rfl⟩, rfl, rfl, rfl, rfl, rfl, rfl⟩
      h1 hc2
    rw [h1, hkey]
